import Mathlib

/-!
Shallow embedding of the space-station prototype (grid positions, tiles,
items, inhabitants, station generation and A* pathfinding), translated from
the Rust sources `station.rs`, `inhabitant.rs`, `item.rs` and the
`station/` submodules, together with theorems checking the specification's
claims against these definitions.

Modelling conventions:
* `i32` becomes `Int` (grid coordinates stay far from the 32-bit range in
  every construction considered here); `u8` fields use `Nat` with explicit
  `% 256` wrapping where Rust's release-mode addition wraps; `usize`
  subtraction/`saturating_sub` becomes truncated `Nat` subtraction.
* Rust `HashMap`s are modelled as association lists with insert-overwrite;
  all reads go through lookups, and the two generation loops that iterate a
  `HashMap` directly receive the iteration order as an explicit argument,
  because Rust's `RandomState` hash order is not determined by the game's
  RNG seed.
* The RNG is modelled by the stream of outcomes of `rng.rand_float() < 0.70`,
  one per generated cell, as a function from the call index to `Bool`.
* Floating-point world coordinates, timers and rendering are outside the
  embedding.
-/

namespace SpaceStation

/-- A position on a grid (`GridPosition` in `station.rs`). -/
structure GridPosition where
  x : Int
  y : Int
deriving DecidableEq, Repr

/-- Manhattan distance on a square grid (`GridPosition::distance`). -/
def GridPosition.distance (self other : GridPosition) : Int :=
  |self.x - other.x| + |self.y - other.y|

/-- The `Ord` instance on `GridPosition`: reversed on `x`, then forward on `y`
(used only as a deterministic tie-break in the pathfinding heap). -/
def GridPosition.cmp (self other : GridPosition) : Ordering :=
  (compare other.x self.x).then (compare self.y other.y)

/-- Wall rendering/adjacency classes (`WallDirection` in `station.rs`). -/
inductive WallDirection where
  | InteriorVertical
  | InteriorHorizontal
  | InteriorCross
  | InteriorCornerTopLeft
  | InteriorCornerTopRight
  | InteriorCornerBottomLeft
  | InteriorCornerBottomRight
  | ExteriorTop
  | ExteriorBottom
  | ExteriorLeft
  | ExteriorRight
  | ExteriorCornerTopLeft
  | ExteriorCornerTopRight
  | ExteriorCornerBottomLeft
  | ExteriorCornerBottomRight
  | Full
deriving DecidableEq, Repr

/-- Tile kinds (`TileType` in `station.rs`). -/
inductive TileType where
  | Floor
  | Wall (dir : WallDirection)
  | Door (dir : WallDirection)
deriving DecidableEq, Repr

/-- Whether a tile type is a wall of any direction. -/
def TileType.isWall : TileType → Bool
  | .Wall _ => true
  | _ => false

/-- Food kinds (`FoodType` in `item.rs`). -/
inductive FoodType where
  | EnergyBar
  | MealReadyToEat
deriving DecidableEq, Repr

/-- Drink kinds (`DrinkType` in `item.rs`). -/
inductive DrinkType where
  | Water
  | Coffee
deriving DecidableEq, Repr

/-- Container kinds (`ContainerType` in `item.rs`). -/
inductive ContainerType where
  | Fridge
  | Locker
deriving DecidableEq, Repr

/-- Item type tags (`ItemType` in `item.rs`). -/
inductive ItemType where
  | Food (kind : FoodType)
  | Drink (kind : DrinkType)
  | Container (kind : ContainerType)
deriving DecidableEq, Repr

/-- All food item types, in `strum` iteration order (`get_food_types`). -/
def get_food_types : List ItemType :=
  [.Food .EnergyBar, .Food .MealReadyToEat]

/-- All drink item types, in `strum` iteration order (`get_drink_types`). -/
def get_drink_types : List ItemType :=
  [.Drink .Water, .Drink .Coffee]

/-- All container item types (`get_container_types`). -/
def get_container_types : List ItemType :=
  [.Container .Fridge, .Container .Locker]

/-- An item (`Item` in `item.rs`): a kind, a grid position, nested contents
and a capacity. The opaque `Uuid` identity is omitted: none of the
operations embedded here reads it. -/
inductive Item where
  | mk (kind : ItemType) (pos : GridPosition) (items : List Item) (capacity : Nat)

/-- The item's kind field. -/
def Item.kind : Item → ItemType
  | .mk k _ _ _ => k

/-- The item's position field. -/
def Item.pos : Item → GridPosition
  | .mk _ p _ _ => p

/-- The item's nested contents field. -/
def Item.items : Item → List Item
  | .mk _ _ l _ => l

/-- The item's capacity field. -/
def Item.capacity : Item → Nat
  | .mk _ _ _ c => c

/-- Accessor `Item::get_type`. -/
def Item.get_type (self : Item) : ItemType := self.kind

/-- Accessor `Item::get_items`. -/
def Item.get_items (self : Item) : List Item := self.items

/-- Hunger restored by an item (`Item::get_energy`). -/
def Item.get_energy (self : Item) : Nat :=
  match self.kind with
  | .Food .EnergyBar => 10
  | .Food .MealReadyToEat => 50
  | .Drink .Coffee => 3
  | .Drink .Water => 0
  | _ => 0

/-- Thirst restored by an item (`Item::get_hydration`). -/
def Item.get_hydration (self : Item) : Nat :=
  match self.kind with
  | .Drink .Water => 10
  | .Drink .Coffee => 8
  | _ => 0

/-- Insertion into a container (`Item::add_item`). The Rust method mutates
`self` and returns a `GameResult<()>`; here it returns the updated item
together with the result, so the rejection case visibly leaves the item
unchanged. -/
def Item.add_item (self item : Item) : Item × Except String Unit :=
  if self.capacity ≤ self.items.length then
    (self, .error "Container is at capacity")
  else
    (.mk self.kind self.pos (self.items ++ [item]) self.capacity, .ok ())

/-- The `.unwrap()` applied to `add_item` inside `Item::new`: the updated
item is kept. (The panic on `Err` is not modelled; the fridge-stocking
theorems below show every such call during `Item::new` returns `Ok`.) -/
def Item.addUnwrap (self item : Item) : Item := (self.add_item item).1

/-- Measure used only to justify the recursion in `Item.new`: the recursive
calls construct non-container contents. -/
def ItemType.newDepth : ItemType → Nat
  | .Container _ => 1
  | _ => 0

/-- Constructor `Item::new`: containers get capacity 10, everything else 0,
and a fridge is stocked with ten alternating energy bars and waters at
positions (0,0)..(9,0). -/
def Item.new (pos : GridPosition) (kind : ItemType) : Item :=
  let capacity : Nat :=
    match kind with
    | .Container _ => 10
    | _ => 0
  let i : Item := .mk kind pos [] capacity
  match kind with
  | .Container .Fridge =>
    ((((((((((i.addUnwrap
      (Item.new ⟨0, 0⟩ (.Food .EnergyBar))).addUnwrap
      (Item.new ⟨1, 0⟩ (.Drink .Water))).addUnwrap
      (Item.new ⟨2, 0⟩ (.Food .EnergyBar))).addUnwrap
      (Item.new ⟨3, 0⟩ (.Drink .Water))).addUnwrap
      (Item.new ⟨4, 0⟩ (.Food .EnergyBar))).addUnwrap
      (Item.new ⟨5, 0⟩ (.Drink .Water))).addUnwrap
      (Item.new ⟨6, 0⟩ (.Food .EnergyBar))).addUnwrap
      (Item.new ⟨7, 0⟩ (.Drink .Water))).addUnwrap
      (Item.new ⟨8, 0⟩ (.Food .EnergyBar))).addUnwrap
      (Item.new ⟨9, 0⟩ (.Drink .Water)))
  | _ => i
termination_by kind.newDepth
decreasing_by all_goals simp [ItemType.newDepth]

/-- A tile (`Tile` in `station/tile.rs` and `station.rs`): grid position,
kind and the items present on it. -/
structure Tile where
  pos : GridPosition
  kind : TileType
  items : List Item

/-- Constructor `Tile::new`. -/
def Tile.new (pos : GridPosition) (kind : TileType) : Tile :=
  ⟨pos, kind, []⟩

/-- `Tile::add_item`. -/
def Tile.add_item (self : Tile) (item : Item) : Tile :=
  { self with items := self.items ++ [item] }

/-- `Tile::get_item`: the first item that matches one of the requested
types directly, or is a container holding a match. -/
def Tile.get_item (self : Tile) (item_types : List ItemType) : Option Item :=
  self.items.find? fun item =>
    item_types.contains item.get_type ||
      (match item.get_type with
       | .Container _ => item.get_items.any fun sub => item_types.contains sub.get_type
       | _ => false)

/-- Predicate `Tile::has_item`. -/
def Tile.has_item (self : Tile) (item_types : List ItemType) : Bool :=
  (self.get_item item_types).isSome

/-- Inhabitant kinds (`InhabitantType` in `inhabitant.rs`). -/
inductive InhabitantType where
  | Pilot
  | Engineer
  | Scientist
  | Medic
  | Soldier
  | Miner
  | Cook
  | Ghost
deriving DecidableEq, Repr

/-- Behaviors on the goal stack (`Behavior` in `inhabitant.rs`). -/
inductive Behavior where
  | Wander
  | Search (kinds : List ItemType)
  | Eat
  | Drink
  | Work
deriving DecidableEq, Repr

/-- An inhabitant (`Inhabitant` in `inhabitant.rs`). The floating-point
world position, destination, elapsed movement time, the `age` duration and
the opaque id are omitted: the embedded operations read and write only the
fields below. `health`, `hunger` and `thirst` are `u8` values, modelled as
`Nat` with explicit `% 256` wrapping where the Rust addition wraps. The
behavior stack's top is the last list element (`Vec::last`/`push`/`pop`). -/
structure Inhabitant where
  path : List GridPosition
  current_waypoint : Nat
  behaviors : List Behavior
  kind : InhabitantType
  health : Nat
  hunger : Nat
  thirst : Nat
  items : List Item

/-- Movement permission test (`Inhabitant::can_move_to`): Ghosts go
anywhere; everyone else is blocked by walls and missing tiles. -/
def Inhabitant.can_move_to (self : Inhabitant) (tile : Option Tile) : Bool :=
  match self.kind with
  | .Ghost => true
  | _ =>
    match tile with
    | some t =>
      match t.kind with
      | .Wall _ => false
      | .Door _ => true
      | .Floor => true
    | none => false

/-- Death transition (`Inhabitant::die`). -/
def Inhabitant.die (self : Inhabitant) : Inhabitant :=
  { self with kind := .Ghost }

/-- Damage application (`Inhabitant::take_damage`): ignored by Ghosts,
`saturating_sub` on `u8` health, and death exactly when health hits 0. -/
def Inhabitant.take_damage (self : Inhabitant) (amount : Nat) : Inhabitant :=
  if self.kind = .Ghost then self
  else
    let s := { self with health := self.health - amount }
    if s.health = 0 then s.die else s

/-- Hunger increase (`Inhabitant::add_hunger`): ignored by Ghosts; the `u8`
addition wraps modulo 256; values from 100 upward clamp to 100 and apply
one point of damage. -/
def Inhabitant.add_hunger (self : Inhabitant) (value : Nat) : Inhabitant :=
  if self.kind = .Ghost then self
  else
    let s := { self with hunger := (self.hunger + value) % 256 }
    if 100 ≤ s.hunger then ({ s with hunger := 100 }).take_damage 1 else s

/-- Thirst increase (`Inhabitant::add_thirst`), mirror image of
`add_hunger`. -/
def Inhabitant.add_thirst (self : Inhabitant) (value : Nat) : Inhabitant :=
  if self.kind = .Ghost then self
  else
    let s := { self with thirst := (self.thirst + value) % 256 }
    if 100 ≤ s.thirst then ({ s with thirst := 100 }).take_damage 1 else s

/-- Consumption of food (`Inhabitant::eat`): `saturating_sub` on hunger. -/
def Inhabitant.eat (self : Inhabitant) (item : Item) : Inhabitant :=
  { self with hunger := self.hunger - item.get_energy }

/-- Consumption of drink (`Inhabitant::drink`): `saturating_sub` on
thirst. -/
def Inhabitant.drink (self : Inhabitant) (item : Item) : Inhabitant :=
  { self with thirst := self.thirst - item.get_hydration }

/-- Inventory test (`Inhabitant::has_item`): a direct match or a match
inside a carried container. -/
def Inhabitant.has_item (self : Inhabitant) (item_types : List ItemType) : Bool :=
  self.items.any fun item =>
    item_types.contains item.get_type ||
      (match item.get_type with
       | .Container _ => item.get_items.any fun sub => item_types.contains sub.get_type
       | _ => false)

/-- The `Some(Behavior::Eat)` arm of `Inhabitant::update`, as a function of
the inhabitant and the current tile (the tile is borrowed immutably in the
source, so its item list cannot change). Eating constructs a fresh
`EnergyBar` item rather than removing anything from an inventory. -/
def Inhabitant.eatBranchStep (self : Inhabitant) (current_tile : Tile) : Inhabitant :=
  if self.has_item get_food_types then
    let s := self.eat (Item.new current_tile.pos (.Food .EnergyBar))
    { s with behaviors := s.behaviors.dropLast }
  else if current_tile.has_item get_food_types then
    let s := self.eat (Item.new current_tile.pos (.Food .EnergyBar))
    { s with behaviors := s.behaviors.dropLast }
  else
    { self with behaviors := self.behaviors ++ [.Search get_food_types] }

/-- The `Some(Behavior::Drink)` arm of `Inhabitant::update`, mirror image
of `eatBranchStep` with `Water`. -/
def Inhabitant.drinkBranchStep (self : Inhabitant) (current_tile : Tile) : Inhabitant :=
  if self.has_item get_drink_types then
    let s := self.drink (Item.new current_tile.pos (.Drink .Water))
    { s with behaviors := s.behaviors.dropLast }
  else if current_tile.has_item get_drink_types then
    let s := self.drink (Item.new current_tile.pos (.Drink .Water))
    { s with behaviors := s.behaviors.dropLast }
  else
    { self with behaviors := self.behaviors ++ [.Search get_drink_types] }

/-- Association-list insert, the model of `HashMap::insert`: the new entry
shadows any older entry of the same key, and every lookup reads the newest
entry, which matches the replacement semantics of the Rust map. (The one
loop that iterates such a map — the wall pass over `to_place` — may visit
a shadowed duplicate twice, but all `to_place` values are equal, so the
resulting station is lookup-identical.) -/
def alistInsert {α : Type} (l : List (GridPosition × α)) (p : GridPosition) (v : α) :
    List (GridPosition × α) :=
  (p, v) :: l

/-- Association-list lookup, the model of `HashMap::get`. -/
def alistLookup {α : Type} (l : List (GridPosition × α)) (p : GridPosition) : Option α :=
  (l.find? fun e => e.1 == p).map (·.2)

/-- The station (`Station` in `station.rs`): its tiles, keyed by grid
position. The `HashMap` is modelled as a list of tiles with
insert-overwrite; every read goes through `get_tile`, and the two
generation loops that iterate the map receive their iteration order as an
explicit argument (Rust's hash order is not derived from the game RNG).
The world-space origin and the cached mesh are omitted. -/
structure Station where
  tiles : List Tile

/-- Map lookup `Station::get_tile`. -/
def Station.get_tile (s : Station) (pos : GridPosition) : Option Tile :=
  s.tiles.find? fun t => t.pos == pos

/-- Membership test `Station::has_tile`. -/
def Station.has_tile (s : Station) (pos : GridPosition) : Bool :=
  (s.get_tile pos).isSome

/-- Map insert `Station::add_tile` (trusts the tile's position). -/
def Station.add_tile (s : Station) (tile : Tile) : Station :=
  ⟨tile :: s.tiles.filter fun u => !(u.pos == tile.pos)⟩

/-- Map removal `Station::remove_tile`. -/
def Station.remove_tile (s : Station) (pos : GridPosition) : Station :=
  ⟨s.tiles.filter fun u => !(u.pos == pos)⟩

/-- Orthogonal neighbor tiles (`Station::get_neighbors`). The source
builds a `HashMap` keyed by the absolute neighbor coordinates from the
E, W, N, S probes (reversed on even-parity cells); here the same tiles are
returned as a list in probe order. Since the four keys are distinct, the
list length equals the map's size, and the pathfinding loop over the map's
entries is insensitive to their order (each neighbor updates a different
key of the cost and predecessor maps). -/
def Station.get_neighbors (s : Station) (pos : GridPosition) : List Tile :=
  let dirs : List GridPosition :=
    [⟨pos.x + 1, pos.y⟩, ⟨pos.x - 1, pos.y⟩, ⟨pos.x, pos.y - 1⟩, ⟨pos.x, pos.y + 1⟩]
  let dirs := if (pos.x + pos.y) % 2 = 0 then dirs.reverse else dirs
  dirs.filterMap s.get_tile

/-- The eight `(x, y)` offsets enumerated by the nested `-1..2` loops of
the wall-placement pass, in loop order, with `(0, 0)` skipped. -/
def eightDeltas : List (Int × Int) :=
  [(-1, -1), (-1, 0), (-1, 1), (0, -1), (0, 1), (1, -1), (1, 0), (1, 1)]

/-- Wall-direction classifier (`Station::get_wall_direction`). The source
tests the neighbor map against the constant keys below and then overrides
whatever it computed with `WallDirection::Full` ("Temporary override while
I figure this function out"), so every generated wall is `Full`. -/
def Station.get_wall_direction (s : Station) (pos : GridPosition) : WallDirection :=
  let neighbors := (s.get_neighbors pos).map fun t => (t.pos.x, t.pos.y)
  let direction : WallDirection :=
    if ¬ neighbors.contains (-1, 1) ∧ ¬ neighbors.contains (0, 0) then
      .ExteriorCornerTopLeft
    else if ¬ neighbors.contains (1, 1) ∧ ¬ neighbors.contains (0, 0) then
      .ExteriorCornerTopRight
    else if ¬ neighbors.contains (-1, 1) ∧ ¬ neighbors.contains (0, 1) then
      .ExteriorCornerBottomLeft
    else if ¬ neighbors.contains (1, 1) ∧ ¬ neighbors.contains (0, 1) then
      .ExteriorCornerBottomRight
    else if ¬ neighbors.contains (-1, 1) then .ExteriorLeft
    else if ¬ neighbors.contains (1, 1) then .ExteriorRight
    else if ¬ neighbors.contains (0, 0) then .ExteriorTop
    else if ¬ neighbors.contains (0, 1) then .ExteriorBottom
    else .Full
  let _ := direction
  .Full

/-- The station cells visited by the nested `for x in 0..width { for y in
0..height }` loops, in loop order (x outer, y inner). -/
def cellList (width height : Nat) : List GridPosition :=
  (List.range width).flatMap fun x => (List.range height).map fun y => ⟨(x : Int), (y : Int)⟩

/-- The seeding pass of `Station::generate`: one `rng.rand_float() < 0.70`
outcome per cell, in cell order; `rand k` is the outcome of the k-th
call. -/
def seedPhase (width height : Nat) (rand : Nat → Bool) : Station :=
  (cellList width height).enum.foldl
    (fun st kp => if rand kp.1 then st.add_tile (Tile.new kp.2 .Floor) else st)
    ⟨[]⟩

/-- One cell update of the smoothing pass of `Station::generate`: the
neighbor count is taken from the station as it stands at this point of the
sweep (the source mutates `self.tiles` in place while looping). -/
def smoothCell (st : Station) (pos : GridPosition) : Station :=
  let neighbor_count := (st.get_neighbors pos).length
  if st.has_tile pos then
    if neighbor_count < 2 then st.remove_tile pos else st
  else if neighbor_count = 3 then st.add_tile (Tile.new pos .Floor) else st

/-- One full in-place sweep of the smoothing pass, in cell order. -/
def smoothOnce (width height : Nat) (st : Station) : Station :=
  (cellList width height).foldl smoothCell st

/-- The smoothing pass of `Station::generate`: `for _ in 0..2` sweeps. -/
def smoothPhase (width height : Nat) (st : Station) : Station :=
  (List.range 2).foldl (fun st _ => smoothOnce width height st) st

/-- The body of the inner `-1..2` double loop of the wall-placement pass:
if the neighbor cell at offset `d` of the floor tile at `pos` has no tile,
record a wall for it in the `to_place` map. -/
def placeWallStep (st : Station) (pos : GridPosition)
    (acc : List (GridPosition × TileType)) (d : Int × Int) :
    List (GridPosition × TileType) :=
  let neighbor_pos : GridPosition := ⟨pos.x + d.1, pos.y + d.2⟩
  if ¬ st.has_tile neighbor_pos then
    alistInsert acc neighbor_pos (.Wall (st.get_wall_direction pos))
  else acc

/-- The inner `-1..2` double loop of the wall-placement pass. -/
def placeWallsAround (st : Station) (pos : GridPosition)
    (acc : List (GridPosition × TileType)) : List (GridPosition × TileType) :=
  eightDeltas.foldl (placeWallStep st pos) acc

/-- The body of the outer loop of the wall-placement pass: floor tiles
contribute their untiled neighbors. -/
def collectWallStep (st : Station) (acc : List (GridPosition × TileType))
    (pos : GridPosition) : List (GridPosition × TileType) :=
  match st.get_tile pos with
  | some tile => if tile.kind = .Floor then placeWallsAround st pos acc else acc
  | none => acc

/-- The first loop of the wall-placement pass of `Station::generate`:
iterate the tile map in the supplied order and collect the `to_place`
map. -/
def collectWalls (st : Station) (order : List GridPosition) :
    List (GridPosition × TileType) :=
  order.foldl (collectWallStep st) []

/-- The wall-placement pass of `Station::generate`. The outer loop
iterates the tile `HashMap`; `order` is that iteration order, supplied
explicitly. Placements are collected in the `to_place` map and then
inserted; since the collected keys are pairwise distinct and disjoint from
the station's keys, the insertion order of `to_place` does not affect any
lookup. -/
def wallPhase (st : Station) (order : List GridPosition) : Station :=
  (collectWalls st order).foldl (fun s2 pt => s2.add_tile (Tile.new pt.1 pt.2)) st

/-- A floor tile is present at `q`. -/
def FloorAt (st : Station) (q : GridPosition) : Prop :=
  ∃ t, st.get_tile q = some t ∧ t.kind = .Floor

/-- `p` is one of the eight surrounding cells of `q`. -/
def Adj8 (q p : GridPosition) : Prop :=
  ∃ d ∈ eightDeltas, p = ⟨q.x + d.1, q.y + d.2⟩

/-- The furnishing pass of `Station::generate`: the first Floor tile in the
tile map's iteration order (`order`, supplied explicitly) receives the
stocked fridge container. The monolithic `station.rs` builds it with
`Fridge::new(tile.pos)`; the container is represented here by the
`item.rs` fridge item, since only the chosen tile is observed by the
claims. -/
def fridgePhase (st : Station) (order : List GridPosition) : Station :=
  let floorPos := order.find? fun pos =>
    match st.get_tile pos with
    | some t => t.kind == .Floor
    | none => false
  match floorPos with
  | some pos =>
    match st.get_tile pos with
    | some t => st.add_tile (t.add_item (Item.new t.pos (.Container .Fridge)))
    | none => st
  | none => st

/-- Station generation (`Station::generate`): seeding, two smoothing
sweeps, wall perimeter, furnishing. `rand` is the stream of
`rand_float() < 0.70` outcomes; `wallOrder` and `fridgeOrder` are the hash
iteration orders of the two loops over `self.tiles`. -/
def generate (width height : Nat) (rand : Nat → Bool)
    (wallOrder fridgeOrder : List GridPosition) : Station :=
  fridgePhase
    (wallPhase (smoothPhase width height (seedPhase width height rand)) wallOrder)
    fridgeOrder

/-- Modelled from the spec: the reference cellular-automaton smoothing
step of section 4.1 point 2 — for each cell, count Floor tiles among the 8
orthogonal-plus-diagonal neighbors **of the state produced by the previous
iteration** (mutations go to a separate buffer, never read mid-sweep);
a Floor tile with fewer than 2 such neighbors is removed, an empty cell
with exactly 3 gains a Floor tile. Used only to compare the generator's
actual sweep against the specified step. -/
def specSmoothStep (width height : Nat) (st : Station) : Station :=
  (cellList width height).foldl
    (fun acc pos =>
      let n := (eightDeltas.filter fun d =>
        match st.get_tile ⟨pos.x + d.1, pos.y + d.2⟩ with
        | some t => t.kind == .Floor
        | none => false).length
      if st.has_tile pos then
        if n < 2 then acc.remove_tile pos else acc
      else if n = 3 then acc.add_tile (Tile.new pos .Floor) else acc)
    st

/-- The `usize::MAX` sentinel that `unwrap_or` substitutes for an absent
cost entry. -/
def usizeMax : Nat := 2 ^ 64 - 1

/-- A pathfinding movement (`Movement` in `station.rs`). -/
structure Movement where
  cost : Nat
  pos : GridPosition
deriving DecidableEq, Repr

/-- The `Ord` instance of `Movement`: lowest cost first (the comparison is
reversed because Rust's `BinaryHeap` pops maxima), grid positions as the
tie-breaker. -/
def Movement.cmp (self other : Movement) : Ordering :=
  (compare other.cost self.cost).then (self.pos.cmp other.pos)

/-- Pop of the `BinaryHeap`: remove a maximal element in the `Movement`
order. Movements equal under `cmp` are identical (the order inspects the
whole value), so which maximal element the heap pops is immaterial; this
model removes the first one. -/
def popMax : List Movement → Option (Movement × List Movement)
  | [] => none
  | m :: ms =>
    let best := ms.foldl (fun acc cur => if acc.cmp cur = .lt then cur else acc) m
    some (best, (m :: ms).erase best)

/-- `Station::movement_cost`: Manhattan distance scaled by 1000, cast to
`usize`. -/
def Station.movement_cost (_s : Station) (current : GridPosition) (next : Tile) : Nat :=
  (current.distance next.pos * 1000).toNat

/-- `Station::movement_heuristic`: unscaled Manhattan distance as `u32`. -/
def Station.movement_heuristic (_s : Station) (a b : GridPosition) : Nat :=
  (|a.x - b.x| + |a.y - b.y|).toNat

/-- The mutable state of the `Station::search` loop: the frontier heap
(as the multiset of its elements), the predecessor map and the cost map. -/
structure SState where
  frontier : List Movement
  came_from : List (GridPosition × Option GridPosition)
  cost_so_far : List (GridPosition × Nat)

/-- One neighbor relaxation of the `Station::search` inner loop: on a cost
improvement the cost map is updated first, and then every non-Wall
neighbor is pushed onto the frontier and recorded in the predecessor
map. -/
def relaxNeighbor (s : Station) (target : GridPosition) (current : Movement)
    (st : SState) (next : Tile) : SState :=
  let new_cost := (alistLookup st.cost_so_far current.pos).getD 0 +
    s.movement_cost current.pos next
  if new_cost < (alistLookup st.cost_so_far next.pos).getD usizeMax then
    let st1 : SState := { st with cost_so_far := alistInsert st.cost_so_far next.pos new_cost }
    match next.kind with
    | .Wall _ => st1
    | _ =>
      { st1 with
        frontier := ⟨new_cost + s.movement_heuristic next.pos target, next.pos⟩ :: st1.frontier,
        came_from := alistInsert st1.came_from next.pos (some current.pos) }
  else st

/-- The positions of the station's tiles, as a list. -/
def stationKeys (s : Station) : List GridPosition := s.tiles.map (·.pos)

/-- Termination measure: how many station keys have no cost entry yet. -/
def measureA (s : Station) (csf : List (GridPosition × Nat)) : Nat :=
  ((stationKeys s).map fun p => if (alistLookup csf p).isNone then 1 else 0).sum

/-- Termination measure: the sum of the recorded costs over the station's
keys. -/
def measureB (s : Station) (csf : List (GridPosition × Nat)) : Nat :=
  ((stationKeys s).map fun p => (alistLookup csf p).getD 0).sum

/-- The `while !frontier.is_empty()` loop of `Station::search`. Every
relaxation either leaves the state unchanged or strictly lowers the
lexicographic measure (new cost key, or a strictly smaller recorded cost),
and popping shrinks the frontier, which is why the Rust loop — and this
recursion — terminates. -/
def searchGo (s : Station) (target : GridPosition) (st : SState) : SState :=
  match h : popMax st.frontier with
  | none => st
  | some (current, rest) =>
    if current.pos = target then { st with frontier := rest }
    else
      searchGo s target
        ((s.get_neighbors current.pos).foldl (relaxNeighbor s target current)
          { st with frontier := rest })
termination_by (measureA s st.cost_so_far, measureB s st.cost_so_far, st.frontier.length)
decreasing_by
  have hfold_mem : ∀ (ms : List Movement) (acc : Movement),
      ms.foldl (fun a c => if a.cmp c = .lt then c else a) acc = acc ∨
      ms.foldl (fun a c => if a.cmp c = .lt then c else a) acc ∈ ms := by
    intro ms
    induction ms with
    | nil => exact fun acc => .inl rfl
    | cons b bs ih =>
      intro acc
      rw [List.foldl_cons]
      rcases ih (if acc.cmp b = .lt then b else acc) with heq | hmem
      · rw [heq]
        split
        · exact .inr (List.mem_cons_self _ _)
        · exact .inl rfl
      · exact .inr (List.mem_cons_of_mem _ hmem)
  have hlen : rest.length < st.frontier.length := by
    cases hf : st.frontier with
    | nil => rw [hf] at h; exact absurd h (by simp [popMax])
    | cons a as =>
      rw [hf] at h
      unfold popMax at h
      dsimp only at h
      rw [Option.some.injEq, Prod.mk.injEq] at h
      obtain ⟨-, hrest⟩ := h
      have hmem : as.foldl (fun x c => if x.cmp c = .lt then c else x) a ∈ a :: as := by
        rcases hfold_mem as a with heq | hm
        · rw [heq]; exact List.mem_cons_self _ _
        · exact List.mem_cons_of_mem _ hm
      have hle := List.length_erase_of_mem hmem
      rw [← hrest]
      simp only [List.length_cons] at hle ⊢
      omega
  have hlook_ins : ∀ (l : List (GridPosition × Nat)) (k : GridPosition) (v : Nat)
      (p : GridPosition),
      alistLookup (alistInsert l k v) p = if k = p then some v else alistLookup l p := by
    intro l k v p
    unfold alistInsert alistLookup
    by_cases hkp : k = p
    · rw [if_pos hkp, List.find?_cons_of_pos _ (by simp [hkp])]
      rfl
    · rw [if_neg hkp, List.find?_cons_of_neg _ (by simp [hkp])]
  have hnbr_key : ∀ (next : Tile), next ∈ s.get_neighbors current.pos →
      next.pos ∈ stationKeys s := by
    intro next hmem
    simp only [Station.get_neighbors] at hmem
    split at hmem <;>
    · obtain ⟨d, -, hfd⟩ := List.mem_filterMap.mp hmem
      unfold Station.get_tile at hfd
      exact List.mem_map.mpr ⟨next, List.mem_of_find?_eq_some hfd, rfl⟩
  have hA_ins : ∀ (csf : List (GridPosition × Nat)) (k : GridPosition) (v : Nat),
      k ∈ stationKeys s → alistLookup csf k = none →
      measureA s (alistInsert csf k v) < measureA s csf := by
    intro csf k v hk hnone
    unfold measureA
    apply List.sum_lt_sum
    · intro p _
      rw [hlook_ins]
      by_cases hkp : k = p
      · rw [if_pos hkp]
        simp
      · rw [if_neg hkp]
    · refine ⟨k, hk, ?_⟩
      rw [hlook_ins, if_pos rfl, hnone]
      simp
  have hA_ins_eq : ∀ (csf : List (GridPosition × Nat)) (k : GridPosition) (v c : Nat),
      alistLookup csf k = some c →
      measureA s (alistInsert csf k v) = measureA s csf := by
    intro csf k v c hsome
    unfold measureA
    congr 1
    apply List.map_congr_left
    intro p _
    rw [hlook_ins]
    by_cases hkp : k = p
    · rw [if_pos hkp, ← hkp, hsome]
      simp
    · rw [if_neg hkp]
  have hB_ins : ∀ (csf : List (GridPosition × Nat)) (k : GridPosition) (v c : Nat),
      k ∈ stationKeys s → alistLookup csf k = some c → v < c →
      measureB s (alistInsert csf k v) < measureB s csf := by
    intro csf k v c hk hsome hvc
    unfold measureB
    apply List.sum_lt_sum
    · intro p _
      rw [hlook_ins]
      by_cases hkp : k = p
      · rw [if_pos hkp, ← hkp, hsome]
        simp
        omega
      · rw [if_neg hkp]
    · refine ⟨k, hk, ?_⟩
      rw [hlook_ins, if_pos rfl, hsome]
      simpa using hvc
  have hrelax : ∀ (st0 : SState) (next : Tile),
      relaxNeighbor s target current st0 next = st0 ∨
      ((relaxNeighbor s target current st0 next).cost_so_far =
          alistInsert st0.cost_so_far next.pos
            ((alistLookup st0.cost_so_far current.pos).getD 0 +
              s.movement_cost current.pos next) ∧
        (alistLookup st0.cost_so_far current.pos).getD 0 +
            s.movement_cost current.pos next <
          (alistLookup st0.cost_so_far next.pos).getD usizeMax) := by
    intro st0 next
    unfold relaxNeighbor
    dsimp only
    split
    · rename_i hlt
      refine .inr ⟨?_, hlt⟩
      split <;> rfl
    · exact .inl rfl
  have hrelax_meas : ∀ (st0 : SState) (next : Tile), next ∈ s.get_neighbors current.pos →
      relaxNeighbor s target current st0 next = st0 ∨
      (measureA s (relaxNeighbor s target current st0 next).cost_so_far <
          measureA s st0.cost_so_far ∨
        (measureA s (relaxNeighbor s target current st0 next).cost_so_far =
            measureA s st0.cost_so_far ∧
          measureB s (relaxNeighbor s target current st0 next).cost_so_far <
            measureB s st0.cost_so_far)) := by
    intro st0 next hmem
    rcases hrelax st0 next with heq | ⟨hcsf, hlt⟩
    · exact .inl heq
    · right
      rw [hcsf]
      rcases hcl : alistLookup st0.cost_so_far next.pos with _ | c
      · exact .inl (hA_ins _ _ _ (hnbr_key next hmem) hcl)
      · refine .inr ⟨hA_ins_eq _ _ _ c hcl, ?_⟩
        refine hB_ins _ _ _ c (hnbr_key next hmem) hcl ?_
        rw [hcl] at hlt
        exact hlt
  have hfoldlex : ∀ (ts : List Tile) (st0 : SState),
      (∀ t ∈ ts, t ∈ s.get_neighbors current.pos) →
      ts.foldl (relaxNeighbor s target current) st0 = st0 ∨
      (measureA s (ts.foldl (relaxNeighbor s target current) st0).cost_so_far <
          measureA s st0.cost_so_far ∨
        (measureA s (ts.foldl (relaxNeighbor s target current) st0).cost_so_far =
            measureA s st0.cost_so_far ∧
          measureB s (ts.foldl (relaxNeighbor s target current) st0).cost_so_far <
            measureB s st0.cost_so_far)) := by
    intro ts
    induction ts with
    | nil => exact fun st0 _ => .inl rfl
    | cons t ts ih =>
      intro st0 hts
      rw [List.foldl_cons]
      rcases hrelax_meas st0 t (hts t (List.mem_cons_self _ _)) with heq | hdec1
      · rw [heq]
        exact ih st0 fun u hu => hts u (List.mem_cons_of_mem _ hu)
      · rcases ih (relaxNeighbor s target current st0 t)
            (fun u hu => hts u (List.mem_cons_of_mem _ hu)) with heq2 | hdec2
        · rw [heq2]
          exact .inr hdec1
        · right
          rcases hdec1 with h1 | ⟨h1a, h1b⟩ <;> rcases hdec2 with h2 | ⟨h2a, h2b⟩ <;> omega
  rcases hfoldlex (s.get_neighbors current.pos) { st with frontier := rest }
      (fun t ht => ht) with heq | hdec
  · rw [heq]
    exact Prod.Lex.right _ (Prod.Lex.right _ hlen)
  · rcases hdec with hlt | ⟨haeq, hblt⟩
    · exact Prod.Lex.left _ _ hlt
    · rw [haeq]
      exact Prod.Lex.right _ (Prod.Lex.left _ _ hblt)

/-- Fuel-indexed twin of `searchGo`, used to evaluate concrete searches:
`some` is the loop's result, `none` means the fuel ran out first. Agreement
with `searchGo` is proved in `searchGoF_agree`. -/
def searchGoF (s : Station) (target : GridPosition) : Nat → SState → Option SState
  | 0, _ => none
  | fuel + 1, st =>
    match popMax st.frontier with
    | none => some st
    | some (current, rest) =>
      if current.pos = target then some { st with frontier := rest }
      else
        searchGoF s target fuel
          ((s.get_neighbors current.pos).foldl (relaxNeighbor s target current)
            { st with frontier := rest })

/-- The initial search state of `Station::search`: the start position on
the frontier with cost 0, mapped to no predecessor. -/
def searchInit (start : GridPosition) : SState :=
  { frontier := [⟨0, start⟩], came_from := [(start, none)], cost_so_far := [(start, 0)] }

/-- `Station::search`: run the A* loop from the initial state and return
the predecessor map. -/
def Station.search (s : Station) (start target : GridPosition) :
    List (GridPosition × Option GridPosition) :=
  (searchGo s target (searchInit start)).came_from

/-- The reconstruction loop of `Station::path_to`: walk the predecessor
map backward from the target, pushing each visited position; if the walk
cannot step (no predecessor entry, or the `None` entry of the start), the
position repeats until the iteration cap fires. `fuel` counts the
remaining iterations before the `count > 10000` abort, so the initial call
passes 10000. -/
def pathToGo (reachable : List (GridPosition × Option GridPosition))
    (start : GridPosition) (fuel : Nat) (current : GridPosition)
    (path : List GridPosition) : List GridPosition :=
  if current = start then path.reverse
  else
    let path := path ++ [current]
    let current :=
      match (alistLookup reachable current).getD none with
      | some next => next
      | none => current
    match fuel with
    | 0 => []
    | n + 1 => pathToGo reachable start n current path

/-- `Station::path_to`: search, then reconstruct backward from the target
and reverse, with the 10,000-iteration cap. -/
def Station.path_to (s : Station) (start target : GridPosition) : List GridPosition :=
  pathToGo (s.search start target) start 10000 target []

/-- Fuel-indexed twin of `Station.path_to` for concrete evaluation:
`some` when the search loop finished within `fuel` iterations. -/
def path_toF (s : Station) (start target : GridPosition) (fuel : Nat) :
    Option (List GridPosition) :=
  (searchGoF s target fuel (searchInit start)).map fun out =>
    pathToGo out.came_from start 10000 target []

/-- The four orthogonal neighbor positions of `p`, in the E, W, N, S probe
order of `get_neighbors`. -/
def orthNeighbors (p : GridPosition) : List GridPosition :=
  [⟨p.x + 1, p.y⟩, ⟨p.x - 1, p.y⟩, ⟨p.x, p.y - 1⟩, ⟨p.x, p.y + 1⟩]

/-- A position the search may reach and record: the start itself, or a
position holding a non-Wall tile. -/
def okPosB (s : Station) (start p : GridPosition) : Bool :=
  (p == start) ||
    (match s.get_tile p with
     | some t => !t.kind.isWall
     | none => false)

/-- Whether the cell at `d` blocks movement for good: it either holds a
Wall tile or no tile at all. -/
def wallOrAbsentB (s : Station) (d : GridPosition) : Bool :=
  match s.get_tile d with
  | some t => t.kind.isWall
  | none => true

/-- Whether the cell at `p` holds a Wall tile. -/
def isWallAtB (s : Station) (p : GridPosition) : Bool :=
  match s.get_tile p with
  | some t => t.kind.isWall
  | none => false

/-- The Manhattan distance between two grid positions, the measure the
pathfinding-correctness property is stated in. -/
def manhattanDist (a b : GridPosition) : Nat :=
  (a.x - b.x).natAbs + (a.y - b.y).natAbs

/-- An open rectangular room with no internal walls, 1 tile wide and
10,003 tiles long: Floor tiles at (0,0) through (0,10002). -/
def corridor : Station :=
  ⟨Tile.new ⟨0, 0⟩ .Floor :: Tile.new ⟨0, 10002⟩ .Floor ::
    (List.range 10001).map fun k => Tile.new ⟨0, k + 1⟩ .Floor⟩

/-- Membership in the rectangular room with inclusive corner bounds
`x0..x1`, `y0..y1`. -/
def inRoom (x0 x1 y0 y1 : Int) (p : GridPosition) : Prop :=
  x0 ≤ p.x ∧ p.x ≤ x1 ∧ y0 ≤ p.y ∧ p.y ≤ y1


/-- The search invariant behind wall-soundness: every frontier element,
every predecessor-map key and every recorded predecessor is the start or a
non-Wall tile position. -/
def SInv (s : Station) (start : GridPosition) (st : SState) : Prop :=
  (∀ m ∈ st.frontier, okPosB s start m.pos = true) ∧
  (∀ e ∈ st.came_from, okPosB s start e.1 = true ∧
    ∀ q, e.2 = some q → okPosB s start q = true)

/-- The core invariant of the `Station::search` loop, for a search started
at `A`: the start keeps cost 0 and no predecessor, every frontier element
carries at least the live cost of its position, every frontier position is
a predecessor-map key, every predecessor link joins adjacent cells with
live costs at least 1000 apart, every live cost dominates 1000 times the
Manhattan distance from the start, and every cost key is a Wall position
or a predecessor-map key. -/
structure CoreInv (s : Station) (A : GridPosition) (st : SState) : Prop where
  costA : alistLookup st.cost_so_far A = some 0
  cameA : alistLookup st.came_from A = some none
  frontierCost : ∀ m ∈ st.frontier,
    ∃ c, alistLookup st.cost_so_far m.pos = some c ∧ c ≤ m.cost
  frontierCame : ∀ m ∈ st.frontier, (alistLookup st.came_from m.pos).isSome = true
  sinv : SInv s A st
  walkStep : ∀ q v, alistLookup st.came_from q = some v → q ≠ A →
    ∃ p cq cp, v = some p ∧ p ∈ orthNeighbors q ∧
      alistLookup st.cost_so_far q = some cq ∧
      alistLookup st.cost_so_far p = some cp ∧ cp + 1000 ≤ cq ∧
      (alistLookup st.came_from p).isSome = true
  lower : ∀ q c, alistLookup st.cost_so_far q = some c → 1000 * manhattanDist A q ≤ c
  costCame : ∀ q c, alistLookup st.cost_so_far q = some c →
    isWallAtB s q = true ∨ (alistLookup st.came_from q).isSome = true

/-- The full A* invariant for a search toward `B` inside the all-Floor
room `x0..x1`, `y0..y1`: the core invariant, plus the propagation
property that every room cell recorded at its optimal cost either still
has a frontier entry no worse than its optimal priority, or has already
relaxed every forward room neighbor to its optimal cost. -/
structure AStarInv (s : Station) (A B : GridPosition) (x0 x1 y0 y1 : Int)
    (st : SState) extends CoreInv s A st : Prop where
  prop : ∀ w, inRoom x0 x1 y0 y1 w →
    alistLookup st.cost_so_far w = some (1000 * manhattanDist A w) →
    (∃ f, f ≤ 1000 * manhattanDist A w + manhattanDist w B ∧
      (⟨f, w⟩ : Movement) ∈ st.frontier) ∨
    (∀ u, inRoom x0 x1 y0 y1 u → u ∈ orthNeighbors w →
      manhattanDist A u = manhattanDist A w + 1 →
      alistLookup st.cost_so_far u = some (1000 * manhattanDist A u))

/-- What the search loop guarantees at exit, as consumed by the path
reconstruction: the walk structure of the final maps, and the target
recorded at exactly its optimal cost. -/
structure SearchOut (A B : GridPosition) (st : SState) : Prop where
  cameA : alistLookup st.came_from A = some none
  walkStep : ∀ q v, alistLookup st.came_from q = some v → q ≠ A →
    ∃ p cq cp, v = some p ∧ p ∈ orthNeighbors q ∧
      alistLookup st.cost_so_far q = some cq ∧
      alistLookup st.cost_so_far p = some cp ∧ cp + 1000 ≤ cq ∧
      (alistLookup st.came_from p).isSome = true
  lower : ∀ q c, alistLookup st.cost_so_far q = some c → 1000 * manhattanDist A q ≤ c
  costB : alistLookup st.cost_so_far B = some (1000 * manhattanDist A B)
  cameB : (alistLookup st.came_from B).isSome = true

/-- Reachability from `start` through non-Wall tiles: a step moves to an
orthogonally adjacent position holding a non-Wall tile. This is the
relation the unreachable case quantifies over. -/
inductive Reachable (s : Station) (start : GridPosition) : GridPosition → Prop where
  | refl : Reachable s start start
  | step {p q : GridPosition} {t : Tile} (hp : Reachable s start p)
      (ht : s.get_tile q = some t) (hnw : t.kind.isWall = false)
      (hadj : p ∈ orthNeighbors q) : Reachable s start q

/-- The search invariant behind the unreachable case: every frontier
position and every predecessor-map key is reachable from the start. -/
def RInv (s : Station) (start : GridPosition) (st : SState) : Prop :=
  (∀ m ∈ st.frontier, Reachable s start m.pos) ∧
  (∀ e ∈ st.came_from, Reachable s start e.1)

/-- The empty test station of the `station.rs` test module (its world
origin plays no role here). -/
def test_station : Station := ⟨[]⟩

/-- The reference fixture `test_station_full` of `station.rs`: a 4x4
station whose border is walls and whose center 2x2 is floor. -/
def test_station_full : Station :=
  (((((((((((((((test_station.add_tile
    (Tile.new ⟨0, 0⟩ (.Wall .ExteriorCornerTopLeft))).add_tile
    (Tile.new ⟨1, 0⟩ (.Wall .ExteriorTop))).add_tile
    (Tile.new ⟨2, 0⟩ (.Wall .ExteriorTop))).add_tile
    (Tile.new ⟨3, 0⟩ (.Wall .ExteriorCornerTopRight))).add_tile
    (Tile.new ⟨0, 3⟩ (.Wall .ExteriorCornerBottomLeft))).add_tile
    (Tile.new ⟨1, 3⟩ (.Wall .ExteriorBottom))).add_tile
    (Tile.new ⟨2, 3⟩ (.Wall .ExteriorBottom))).add_tile
    (Tile.new ⟨3, 3⟩ (.Wall .ExteriorCornerBottomRight))).add_tile
    (Tile.new ⟨0, 1⟩ (.Wall .ExteriorLeft))).add_tile
    (Tile.new ⟨0, 2⟩ (.Wall .ExteriorLeft))).add_tile
    (Tile.new ⟨3, 1⟩ (.Wall .ExteriorRight))).add_tile
    (Tile.new ⟨3, 2⟩ (.Wall .ExteriorRight))).add_tile
    (Tile.new ⟨1, 1⟩ .Floor)).add_tile
    (Tile.new ⟨1, 2⟩ .Floor)).add_tile
    (Tile.new ⟨2, 1⟩ .Floor)).add_tile
    (Tile.new ⟨2, 2⟩ .Floor)

/-- The fixture of the second half of the `path_to` test: the full test
station with a `Full` wall overwriting the floor at (2,2). -/
def test_station_walled : Station :=
  test_station_full.add_tile (Tile.new ⟨2, 2⟩ (.Wall .Full))

/-- A station with a floor at (0,0), a floor at (3,3), and the four
orthogonal neighbors of (3,3) walled: the target is enclosed. -/
def test_station_enclosed : Station :=
  (((((test_station.add_tile
    (Tile.new ⟨0, 0⟩ .Floor)).add_tile
    (Tile.new ⟨3, 3⟩ .Floor)).add_tile
    (Tile.new ⟨2, 3⟩ (.Wall .Full))).add_tile
    (Tile.new ⟨4, 3⟩ (.Wall .Full))).add_tile
    (Tile.new ⟨3, 2⟩ (.Wall .Full))).add_tile
    (Tile.new ⟨3, 4⟩ (.Wall .Full))

/-- A need-increasing call, for stating properties of arbitrary sequences
of `add_hunger`/`add_thirst` calls. -/
inductive NeedCall where
  | hunger (value : Nat)
  | thirst (value : Nat)

/-- Apply a sequence of `add_hunger`/`add_thirst` calls in order. -/
def applyNeedCalls (i : Inhabitant) (calls : List NeedCall) : Inhabitant :=
  calls.foldl
    (fun i c =>
      match c with
      | .hunger v => i.add_hunger v
      | .thirst v => i.add_thirst v)
    i

mutual

/-- The capacity invariant of an item, checked recursively: the item's
contents fit its capacity, and so do the contents of every nested item. -/
def Item.soundB : Item → Bool
  | .mk _ _ l c => Nat.ble l.length c && Item.soundListB l

/-- The capacity invariant of a list of items. -/
def Item.soundListB : List Item → Bool
  | [] => true
  | i :: is => Item.soundB i && Item.soundListB is

end

/-- The capacity invariant as a proposition. -/
def Item.Sound (i : Item) : Prop := i.soundB = true

/-- An engineer at hunger and thirst saturation with full health, used as a
concrete input for the needs-clamping claims. -/
def engineerSaturated : Inhabitant :=
  { path := [], current_waypoint := 0, behaviors := [], kind := .Engineer,
    health := 100, hunger := 100, thirst := 100, items := [] }

/-- A ghost at hunger saturation (as produced by starving to death), used
as a concrete input for the needs-clamping claims. -/
def ghostSaturated : Inhabitant :=
  { path := [], current_waypoint := 0, behaviors := [], kind := .Ghost,
    health := 0, hunger := 100, thirst := 100, items := [] }

/-- An engineer with one health point left, used as a concrete input for
the death-transition claim. -/
def engineerFrail : Inhabitant :=
  { path := [], current_waypoint := 0, behaviors := [], kind := .Engineer,
    health := 1, hunger := 0, thirst := 0, items := [] }

/-- A locker filled to its capacity with ten energy bars, used as a
concrete at-capacity container. -/
def fullLocker : Item :=
  .mk (.Container .Locker) ⟨0, 0⟩
    [.mk (.Food .EnergyBar) ⟨0, 0⟩ [] 0, .mk (.Food .EnergyBar) ⟨1, 0⟩ [] 0,
     .mk (.Food .EnergyBar) ⟨2, 0⟩ [] 0, .mk (.Food .EnergyBar) ⟨3, 0⟩ [] 0,
     .mk (.Food .EnergyBar) ⟨4, 0⟩ [] 0, .mk (.Food .EnergyBar) ⟨5, 0⟩ [] 0,
     .mk (.Food .EnergyBar) ⟨6, 0⟩ [] 0, .mk (.Food .EnergyBar) ⟨7, 0⟩ [] 0,
     .mk (.Food .EnergyBar) ⟨8, 0⟩ [] 0, .mk (.Food .EnergyBar) ⟨9, 0⟩ [] 0]
    10

/-- A seeding stream that places a tile on every cell with an even call
index: on a 3x3 grid this seeds the four corners and the center. -/
def checkerRand : Nat → Bool := fun k => k % 2 == 0

/-- A seeding stream that places a tile on every cell. -/
def fullRand : Nat → Bool := fun _ => true

/-- The key enumeration of the smoothed 2x2 fully seeded station, in its
internal insert order, used as the wall-pass hash iteration order. -/
def wallOrder2x2 : List GridPosition :=
  [⟨1, 1⟩, ⟨1, 0⟩, ⟨0, 1⟩, ⟨0, 0⟩]

/-- The twelve wall positions generated around the 2x2 fully seeded
station. -/
def wallRing2x2 : List GridPosition :=
  [⟨-1, -1⟩, ⟨-1, 0⟩, ⟨-1, 1⟩, ⟨-1, 2⟩, ⟨0, -1⟩, ⟨0, 2⟩,
   ⟨1, -1⟩, ⟨1, 2⟩, ⟨2, -1⟩, ⟨2, 0⟩, ⟨2, 1⟩, ⟨2, 2⟩]

/-- One possible hash iteration order of the finished 2x2 station's tile
map: the floor (0,0) comes first. -/
def fridgeOrderA : List GridPosition :=
  [⟨0, 0⟩, ⟨0, 1⟩, ⟨1, 0⟩, ⟨1, 1⟩] ++ wallRing2x2

/-- Another possible hash iteration order of the same tile map: the floor
(1,1) comes first. -/
def fridgeOrderB : List GridPosition :=
  [⟨1, 1⟩, ⟨1, 0⟩, ⟨0, 1⟩, ⟨0, 0⟩] ++ wallRing2x2

/-! ## Theorems -/

theorem Inhabitant.take_damage_hunger (i : Inhabitant) (amount : Nat) :
    (i.take_damage amount).hunger = i.hunger := by
  unfold Inhabitant.take_damage
  split
  · rfl
  · dsimp only
    split <;> rfl

theorem Inhabitant.take_damage_thirst (i : Inhabitant) (amount : Nat) :
    (i.take_damage amount).thirst = i.thirst := by
  unfold Inhabitant.take_damage
  split
  · rfl
  · dsimp only
    split <;> rfl

theorem Inhabitant.take_damage_health (i : Inhabitant) (amount : Nat)
    (hk : ¬ i.kind = .Ghost) : (i.take_damage amount).health = i.health - amount := by
  unfold Inhabitant.take_damage
  rw [if_neg hk]
  dsimp only
  split <;> rfl

theorem Inhabitant.add_hunger_le (i : Inhabitant) (v : Nat) (hh : i.hunger ≤ 100) :
    (i.add_hunger v).hunger ≤ 100 := by
  unfold Inhabitant.add_hunger
  split
  · exact hh
  · dsimp only
    split
    · rw [Inhabitant.take_damage_hunger]
    · rename_i h
      have h' : ¬ 100 ≤ (i.hunger + v) % 256 := h
      show (i.hunger + v) % 256 ≤ 100
      omega

theorem Inhabitant.add_hunger_thirst (i : Inhabitant) (v : Nat) :
    (i.add_hunger v).thirst = i.thirst := by
  unfold Inhabitant.add_hunger
  split
  · rfl
  · dsimp only
    split
    · rw [Inhabitant.take_damage_thirst]
    · rfl

theorem Inhabitant.add_thirst_le (i : Inhabitant) (v : Nat) (hh : i.thirst ≤ 100) :
    (i.add_thirst v).thirst ≤ 100 := by
  unfold Inhabitant.add_thirst
  split
  · exact hh
  · dsimp only
    split
    · rw [Inhabitant.take_damage_thirst]
    · rename_i h
      have h' : ¬ 100 ≤ (i.thirst + v) % 256 := h
      show (i.thirst + v) % 256 ≤ 100
      omega

theorem Inhabitant.add_thirst_hunger (i : Inhabitant) (v : Nat) :
    (i.add_thirst v).hunger = i.hunger := by
  unfold Inhabitant.add_thirst
  split
  · rfl
  · dsimp only
    split
    · rw [Inhabitant.take_damage_hunger]
    · rfl

/-- C6: an inhabitant whose health is reduced to 0 by `take_damage`
becomes a Ghost; Ghosts pass `can_move_to` for every argument, walls and
missing tiles included; and `add_hunger`, `add_thirst` and `take_damage`
leave a Ghost entirely unchanged. -/
theorem death_transition_ghost :
    (∀ (i : Inhabitant) (amount : Nat), i.kind ≠ .Ghost →
      (i.take_damage amount).health = 0 → (i.take_damage amount).kind = .Ghost) ∧
    (∀ (i : Inhabitant) (tile : Option Tile), i.kind = .Ghost →
      i.can_move_to tile = true) ∧
    (∀ (i : Inhabitant) (v : Nat), i.kind = .Ghost →
      i.add_hunger v = i ∧ i.add_thirst v = i ∧ i.take_damage v = i) := by
  refine ⟨?_, ?_, ?_⟩
  · intro i amount hk
    unfold Inhabitant.take_damage
    simp only [hk, if_false]
    split
    · intro _
      rfl
    · intro h0
      simp at h0
      omega
  · intro i tile hk
    unfold Inhabitant.can_move_to
    rw [hk]
  · intro i v hk
    unfold Inhabitant.add_hunger Inhabitant.add_thirst Inhabitant.take_damage
    simp [hk]

/-- Witness for C6 at concrete inputs. -/
theorem death_transition_ghost_witness :
    (engineerFrail.take_damage 1).kind = .Ghost ∧
    ghostSaturated.can_move_to none = true ∧
    ghostSaturated.add_hunger 7 = ghostSaturated :=
  ⟨death_transition_ghost.1 engineerFrail 1 (by decide) (by decide),
   death_transition_ghost.2.1 ghostSaturated none (by rfl),
   (death_transition_ghost.2.2 ghostSaturated 7 (by rfl)).1⟩

/-- C5 counterexample: at hunger saturation, `add_hunger 156` wraps the
`u8` sum to 0 — the hunger value leaves 100 downward and no damage is
applied — and a saturated Ghost takes no damage either, contrary to "at
saturation each call applies 1 point of damage". -/
theorem needs_clamping_counterexample :
    (engineerSaturated.add_hunger 156).hunger = 0 ∧
    (engineerSaturated.add_hunger 156).health = engineerSaturated.health ∧
    (ghostSaturated.add_hunger 1).hunger = ghostSaturated.hunger ∧
    (ghostSaturated.add_hunger 1).health = ghostSaturated.health := by
  decide

/-- C5 amended: hunger and thirst stay at most 100 across every sequence
of `add_hunger`/`add_thirst` calls (from any state with both at most 100);
for a non-Ghost at saturation, a call whose `u8` sum does not wrap (value
at most 155) keeps the stat at 100 and applies exactly 1 point of damage;
`take_damage` is saturating so health never goes below 0; and within these
operations the kind changes only by death at exactly health 0. -/
theorem needs_clamping_amended :
    (∀ (i : Inhabitant) (calls : List NeedCall), i.hunger ≤ 100 → i.thirst ≤ 100 →
      (applyNeedCalls i calls).hunger ≤ 100 ∧ (applyNeedCalls i calls).thirst ≤ 100) ∧
    (∀ (i : Inhabitant) (v : Nat), i.kind ≠ .Ghost → i.hunger = 100 → v ≤ 155 →
      (i.add_hunger v).hunger = 100 ∧ (i.add_hunger v).health = i.health - 1) ∧
    (∀ (i : Inhabitant) (v : Nat), i.kind ≠ .Ghost → i.thirst = 100 → v ≤ 155 →
      (i.add_thirst v).thirst = 100 ∧ (i.add_thirst v).health = i.health - 1) ∧
    (∀ (i : Inhabitant) (amount : Nat), i.kind ≠ .Ghost →
      (i.take_damage amount).health = i.health - amount) ∧
    (∀ (i : Inhabitant) (amount : Nat), (i.take_damage amount).kind ≠ i.kind →
      (i.take_damage amount).health = 0 ∧ (i.take_damage amount).kind = .Ghost) := by
  refine ⟨?_, ?_, ?_, ?_, ?_⟩
  · intro i calls
    induction calls generalizing i with
    | nil => exact fun hh ht => ⟨hh, ht⟩
    | cons c rest ih =>
      intro hh ht
      cases c with
      | hunger v =>
        exact ih _ (i.add_hunger_le v hh) (by rw [Inhabitant.add_hunger_thirst]; exact ht)
      | thirst v =>
        exact ih _ (by rw [Inhabitant.add_thirst_hunger]; exact hh) (i.add_thirst_le v ht)
  · intro i v hk hh hv
    unfold Inhabitant.add_hunger
    rw [if_neg hk]
    dsimp only
    split
    · exact ⟨by rw [Inhabitant.take_damage_hunger],
        by rw [Inhabitant.take_damage_health _ _ (by exact hk)]⟩
    · rename_i hcond
      exfalso
      apply hcond
      show (100 : Nat) ≤ (i.hunger + v) % 256
      rw [hh, Nat.mod_eq_of_lt (by omega)]
      omega
  · intro i v hk hh hv
    unfold Inhabitant.add_thirst
    rw [if_neg hk]
    dsimp only
    split
    · exact ⟨by rw [Inhabitant.take_damage_thirst],
        by rw [Inhabitant.take_damage_health _ _ (by exact hk)]⟩
    · rename_i hcond
      exfalso
      apply hcond
      show (100 : Nat) ≤ (i.thirst + v) % 256
      rw [hh, Nat.mod_eq_of_lt (by omega)]
      omega
  · intro i amount hk
    exact Inhabitant.take_damage_health i amount hk
  · intro i amount
    unfold Inhabitant.take_damage
    split
    · intro h
      exact absurd rfl h
    · dsimp only
      split
      · rename_i h0
        exact fun _ => ⟨h0, rfl⟩
      · intro h
        exact absurd rfl h

/-- Witness for the amended C5 at concrete inputs. -/
theorem needs_clamping_amended_witness :
    ((applyNeedCalls engineerFrail [.hunger 200, .thirst 3]).hunger ≤ 100 ∧
      (applyNeedCalls engineerFrail [.hunger 200, .thirst 3]).thirst ≤ 100) ∧
    ((engineerSaturated.add_hunger 1).hunger = 100 ∧
      (engineerSaturated.add_hunger 1).health = engineerSaturated.health - 1) ∧
    ((engineerSaturated.add_thirst 1).thirst = 100 ∧
      (engineerSaturated.add_thirst 1).health = engineerSaturated.health - 1) ∧
    (engineerFrail.take_damage 3).health = engineerFrail.health - 3 ∧
    ((engineerFrail.take_damage 1).health = 0 ∧ (engineerFrail.take_damage 1).kind = .Ghost) :=
  ⟨needs_clamping_amended.1 engineerFrail [.hunger 200, .thirst 3] (by decide) (by decide),
   needs_clamping_amended.2.1 engineerSaturated 1 (by decide) (by decide) (by decide),
   needs_clamping_amended.2.2.1 engineerSaturated 1 (by decide) (by decide) (by decide),
   needs_clamping_amended.2.2.2.1 engineerFrail 3 (by decide),
   needs_clamping_amended.2.2.2.2 engineerFrail 1 (by decide)⟩

theorem length_filterMap_eq_length_filter (f : GridPosition → Option Tile)
    (l : List GridPosition) :
    (l.filterMap f).length = (l.filter fun d => (f d).isSome).length := by
  induction l with
  | nil => rfl
  | cons a as ih => cases h : f a <;> simp [List.filterMap_cons, h, ih]

/-- C8 counterexample: seeding a 3x3 grid with tiles on the corners and
the center (stream `checkerRand`), the generator's first smoothing
iteration deletes the center tile — it counts only the 4 orthogonal
neighbors, and reads its own in-progress writes — while the reference
buffered 8-neighborhood step of the spec keeps it (the center has 4
diagonal Floor neighbors); the divergence persists after both
iterations. -/
theorem smoothing_counterexample :
    ((smoothOnce 3 3 (seedPhase 3 3 checkerRand)).get_tile ⟨1, 1⟩).isNone = true ∧
    ((specSmoothStep 3 3 (seedPhase 3 3 checkerRand)).get_tile ⟨1, 1⟩).map (·.kind) =
      some .Floor ∧
    ((smoothPhase 3 3 (seedPhase 3 3 checkerRand)).get_tile ⟨1, 1⟩).isNone = true ∧
    ((specSmoothStep 3 3 (specSmoothStep 3 3 (seedPhase 3 3 checkerRand))).get_tile
        ⟨1, 1⟩).map (·.kind) = some .Floor := by
  decide

/-- C8 amended: the generator's smoothing phase is two successive sweeps;
each sweep walks the cells in x-outer/y-inner order mutating the station
in place, and each cell update counts the tiles present on the 4
orthogonal neighbor cells of the current, partially updated station (not
Floor tiles among 8 neighbors of the previous iteration's state): a tile
with fewer than 2 such neighbors is removed, an empty cell with exactly 3
gains a Floor tile. -/
theorem smoothing_actual_rule :
    (∀ (w h : Nat) (st : Station), smoothPhase w h st = smoothOnce w h (smoothOnce w h st)) ∧
    (∀ (st : Station) (pos : GridPosition),
      (st.get_neighbors pos).length =
        (([⟨pos.x + 1, pos.y⟩, ⟨pos.x - 1, pos.y⟩, ⟨pos.x, pos.y - 1⟩,
           ⟨pos.x, pos.y + 1⟩] : List GridPosition).filter fun d => st.has_tile d).length) ∧
    (∀ (w h : Nat) (st : Station), smoothOnce w h st = (cellList w h).foldl smoothCell st) ∧
    (∀ (st : Station) (pos : GridPosition),
      smoothCell st pos =
        if st.has_tile pos then
          if (st.get_neighbors pos).length < 2 then st.remove_tile pos else st
        else if (st.get_neighbors pos).length = 3 then
          st.add_tile (Tile.new pos .Floor)
        else st) := by
  refine ⟨fun w h st => rfl, ?_, fun w h st => rfl, fun st pos => rfl⟩
  intro st pos
  unfold Station.get_neighbors
  split
  · rw [length_filterMap_eq_length_filter, List.filter_reverse, List.length_reverse]
    simp [Station.has_tile]
  · rw [length_filterMap_eq_length_filter]
    simp [Station.has_tile]

theorem find?_filter_comm {α : Type} (l : List α) (p q : α → Bool)
    (h : ∀ x, p x = true → q x = true) : (l.filter q).find? p = l.find? p := by
  induction l with
  | nil => rfl
  | cons a as ih =>
    by_cases hq : q a = true
    · rw [List.filter_cons_of_pos hq]
      cases hp : p a
      · rw [List.find?_cons_of_neg _ (by simp [hp]), List.find?_cons_of_neg _ (by simp [hp])]
        exact ih
      · rw [List.find?_cons_of_pos _ hp, List.find?_cons_of_pos _ hp]
    · rw [List.filter_cons_of_neg (by simpa using hq)]
      cases hp : p a
      · rw [List.find?_cons_of_neg _ (by simp [hp])]
        exact ih
      · exact absurd (h a hp) hq

theorem Station.get_tile_add_tile (s : Station) (t : Tile) (p : GridPosition) :
    (s.add_tile t).get_tile p = if t.pos = p then some t else s.get_tile p := by
  unfold Station.add_tile Station.get_tile
  by_cases h : t.pos = p
  · rw [if_pos h, List.find?_cons_of_pos _ (by simp [h])]
  · rw [if_neg h, List.find?_cons_of_neg _ (by simp [h])]
    exact find?_filter_comm _ _ _ fun x hx => by
      simp only [beq_iff_eq] at hx
      simp only [hx, Bool.not_eq_true', beq_eq_false_iff_ne, ne_eq]
      exact fun hh => h hh.symm

theorem Station.get_wall_direction_full (s : Station) (pos : GridPosition) :
    s.get_wall_direction pos = .Full := rfl

theorem mem_alistInsert {α : Type} {l : List (GridPosition × α)} {k : GridPosition}
    {v : α} {e : GridPosition × α} (he : e ∈ alistInsert l k v) :
    e = (k, v) ∨ e ∈ l := by
  unfold alistInsert at he
  rcases List.mem_cons.mp he with he | he
  · exact .inl he
  · exact .inr he

theorem keyMem_alistInsert {α : Type} (l : List (GridPosition × α)) (k : GridPosition)
    (v : α) (p : GridPosition) :
    (∃ e ∈ alistInsert l k v, e.1 = p) ↔ k = p ∨ ∃ e ∈ l, e.1 = p := by
  constructor
  · rintro ⟨e, he, hep⟩
    rcases mem_alistInsert he with rfl | he
    · exact .inl hep
    · exact .inr ⟨e, he, hep⟩
  · rintro (rfl | ⟨e, he, hep⟩)
    · exact ⟨(k, v), List.mem_cons_self _ _, rfl⟩
    · exact ⟨e, List.mem_cons_of_mem _ he, hep⟩

theorem placeWallStep_mem (st : Station) (pos : GridPosition)
    (acc : List (GridPosition × TileType)) (d : Int × Int)
    (e : GridPosition × TileType) (he : e ∈ placeWallStep st pos acc d) :
    e ∈ acc ∨
      (e = (⟨pos.x + d.1, pos.y + d.2⟩, .Wall .Full) ∧
        st.has_tile ⟨pos.x + d.1, pos.y + d.2⟩ = false) := by
  simp only [placeWallStep] at he
  split at he
  · rename_i hnt
    rcases mem_alistInsert he with rfl | he
    · exact .inr ⟨by rw [Station.get_wall_direction_full], by simpa using hnt⟩
    · exact .inl he
  · exact .inl he

theorem placeWallsFold_mem (st : Station) (pos : GridPosition) :
    ∀ (ds : List (Int × Int)) (acc : List (GridPosition × TileType))
      (e : GridPosition × TileType), e ∈ ds.foldl (placeWallStep st pos) acc →
      e ∈ acc ∨ ∃ d ∈ ds,
        e = (⟨pos.x + d.1, pos.y + d.2⟩, .Wall .Full) ∧
          st.has_tile ⟨pos.x + d.1, pos.y + d.2⟩ = false := by
  intro ds
  induction ds with
  | nil => exact fun acc e he => .inl he
  | cons d ds ih =>
    intro acc e he
    rcases ih _ e he with he | ⟨d', hd', he'⟩
    · rcases placeWallStep_mem st pos acc d e he with he | he
      · exact .inl he
      · exact .inr ⟨d, List.mem_cons_self _ _, he⟩
    · exact .inr ⟨d', List.mem_cons_of_mem _ hd', he'⟩

theorem placeWallsFold_keyMem_mono (st : Station) (pos : GridPosition)
    (ds : List (Int × Int)) (acc : List (GridPosition × TileType))
    (p : GridPosition) (h : ∃ e ∈ acc, e.1 = p) :
    ∃ e ∈ ds.foldl (placeWallStep st pos) acc, e.1 = p := by
  induction ds generalizing acc with
  | nil => exact h
  | cons d ds ih =>
    rw [List.foldl_cons]
    refine ih _ ?_
    simp only [placeWallStep]
    split
    · exact (keyMem_alistInsert _ _ _ _).mpr (.inr h)
    · exact h

theorem placeWallsFold_covers (st : Station) (pos : GridPosition) :
    ∀ (ds : List (Int × Int)) (acc : List (GridPosition × TileType))
      (d : Int × Int), d ∈ ds →
      st.has_tile ⟨pos.x + d.1, pos.y + d.2⟩ = false →
      ∃ e ∈ ds.foldl (placeWallStep st pos) acc, e.1 = ⟨pos.x + d.1, pos.y + d.2⟩ := by
  intro ds
  induction ds with
  | nil => intro acc d hd; cases hd
  | cons d0 ds ih =>
    intro acc d hd hnt
    rw [List.foldl_cons]
    rcases List.mem_cons.mp hd with rfl | hd'
    · apply placeWallsFold_keyMem_mono
      simp only [placeWallStep]
      rw [if_pos (by simp [hnt])]
      exact (keyMem_alistInsert _ _ _ _).mpr (.inl rfl)
    · exact ih _ d hd' hnt

theorem collectWallsFold_mem (st : Station) :
    ∀ (order : List GridPosition) (acc : List (GridPosition × TileType))
      (e : GridPosition × TileType), e ∈ order.foldl (collectWallStep st) acc →
      e ∈ acc ∨
        (e.2 = .Wall .Full ∧ st.has_tile e.1 = false ∧
          ∃ q, FloorAt st q ∧ Adj8 q e.1) := by
  intro order
  induction order with
  | nil => exact fun acc e he => .inl he
  | cons o os ih =>
    intro acc e he
    rcases ih _ e he with he | he
    · unfold collectWallStep at he
      split at he
      · rename_i tile hsome
        split at he
        · rename_i hfloor
          rcases placeWallsFold_mem st o eightDeltas acc e he with he | ⟨d, hd, he1, he2⟩
          · exact .inl he
          · refine .inr ⟨by rw [he1], by rw [he1]; exact he2,
              o, ⟨tile, hsome, hfloor⟩, d, hd, by rw [he1]⟩
        · exact .inl he
      · exact .inl he
    · exact .inr he

theorem collectWallsFold_keyMem_mono (st : Station) (order : List GridPosition)
    (acc : List (GridPosition × TileType)) (p : GridPosition)
    (h : ∃ e ∈ acc, e.1 = p) :
    ∃ e ∈ order.foldl (collectWallStep st) acc, e.1 = p := by
  induction order generalizing acc with
  | nil => exact h
  | cons o os ih =>
    rw [List.foldl_cons]
    refine ih _ ?_
    unfold collectWallStep
    split
    · split
      · exact placeWallsFold_keyMem_mono st o eightDeltas acc p h
      · exact h
    · exact h

theorem collectWallsFold_covers (st : Station) (q p : GridPosition)
    (hfloor : FloorAt st q) (hadj : Adj8 q p)
    (hnt : st.has_tile p = false) :
    ∀ (order : List GridPosition) (acc : List (GridPosition × TileType)),
      q ∈ order → ∃ e ∈ order.foldl (collectWallStep st) acc, e.1 = p := by
  intro order
  induction order with
  | nil => intro acc hq; cases hq
  | cons o os ih =>
    intro acc hq
    rw [List.foldl_cons]
    rcases List.mem_cons.mp hq with rfl | hq'
    · apply collectWallsFold_keyMem_mono
      obtain ⟨t, ht, hk⟩ := hfloor
      unfold collectWallStep
      rw [ht]
      dsimp only
      rw [if_pos hk]
      obtain ⟨d, hd, rfl⟩ := hadj
      exact placeWallsFold_covers st q eightDeltas acc d hd hnt
    · exact ih _ hq'

theorem collectWalls_keyMem_iff (st : Station) (order : List GridPosition)
    (horder : ∀ q, FloorAt st q → q ∈ order) (p : GridPosition) :
    (∃ e ∈ collectWalls st order, e.1 = p) ↔
      (st.has_tile p = false ∧ ∃ q, FloorAt st q ∧ Adj8 q p) := by
  constructor
  · rintro ⟨e, he, rfl⟩
    rcases collectWallsFold_mem st order [] e he with he | ⟨_, h2, h3⟩
    · cases he
    · exact ⟨h2, h3⟩
  · rintro ⟨hnt, q, hfloor, hadj⟩
    exact collectWallsFold_covers st q p hfloor hadj hnt order [] (horder q hfloor)

theorem collectWalls_val (st : Station) (order : List GridPosition)
    (e : GridPosition × TileType) (he : e ∈ collectWalls st order) :
    e.2 = .Wall .Full := by
  rcases collectWallsFold_mem st order [] e he with he | he
  · cases he
  · exact he.1

theorem foldl_add_wall_get_tile (L : List (GridPosition × TileType)) (st : Station)
    (p : GridPosition) (hL : ∀ e ∈ L, e.2 = .Wall .Full) :
    (L.foldl (fun s2 pt => s2.add_tile (Tile.new pt.1 pt.2)) st).get_tile p =
      if ∃ e ∈ L, e.1 = p then some (Tile.new p (.Wall .Full)) else st.get_tile p := by
  induction L generalizing st with
  | nil => simp
  | cons e rest ih =>
    rw [List.foldl_cons, ih _ fun x hx => hL x (List.mem_cons_of_mem _ hx)]
    by_cases hr : ∃ x ∈ rest, x.1 = p
    · rw [if_pos hr, if_pos ⟨hr.choose, List.mem_cons_of_mem _ hr.choose_spec.1,
        hr.choose_spec.2⟩]
    · rw [if_neg hr, Station.get_tile_add_tile]
      rw [show (Tile.new e.1 e.2).pos = e.1 from rfl]
      by_cases hep2 : e.1 = p
      · rw [if_pos hep2, if_pos ⟨e, List.mem_cons_self _ _, hep2⟩,
          hL e (List.mem_cons_self _ _), hep2]
      · rw [if_neg hep2, if_neg ?_]
        rintro ⟨x, hx, hxp⟩
        rcases List.mem_cons.mp hx with rfl | hx
        · exact hep2 hxp
        · exact hr ⟨x, hx, hxp⟩

theorem wallPhase_get_tile_pos (st : Station) (order : List GridPosition)
    (horder : ∀ q, FloorAt st q → q ∈ order) (p : GridPosition)
    (hc : st.has_tile p = false ∧ ∃ q, FloorAt st q ∧ Adj8 q p) :
    (wallPhase st order).get_tile p = some (Tile.new p (.Wall .Full)) := by
  unfold wallPhase
  rw [foldl_add_wall_get_tile _ _ _ (collectWalls_val st order)]
  rw [if_pos ((collectWalls_keyMem_iff st order horder p).mpr hc)]

theorem wallPhase_get_tile_neg (st : Station) (order : List GridPosition)
    (horder : ∀ q, FloorAt st q → q ∈ order) (p : GridPosition)
    (hc : ¬ (st.has_tile p = false ∧ ∃ q, FloorAt st q ∧ Adj8 q p)) :
    (wallPhase st order).get_tile p = st.get_tile p := by
  unfold wallPhase
  rw [foldl_add_wall_get_tile _ _ _ (collectWalls_val st order)]
  rw [if_neg fun h => hc ((collectWalls_keyMem_iff st order horder p).mp h)]

theorem fridgePhase_kind (st : Station) (order : List GridPosition) (p : GridPosition) :
    ((fridgePhase st order).get_tile p).map (·.kind) = (st.get_tile p).map (·.kind) := by
  unfold fridgePhase
  dsimp only
  split
  · rename_i pos hfind
    split
    · rename_i t ht
      rw [Station.get_tile_add_tile]
      split
      · rename_i hp
        have : (t.add_item (Item.new t.pos (.Container .Fridge))).pos = t.pos := rfl
        rw [this] at hp
        have htp : t.pos = pos := by
          have := List.find?_some ht
          simpa using this
        rw [← hp, htp, ht]
        rfl
      · rfl
    · rfl
  · rfl

theorem FloorAt_has_tile (st : Station) (q : GridPosition) (h : FloorAt st q) :
    st.has_tile q = true := by
  obtain ⟨t, ht, _⟩ := h
  unfold Station.has_tile
  rw [ht]
  rfl

theorem Station.has_tile_iff_mem (s : Station) (p : GridPosition) :
    s.has_tile p = true ↔ p ∈ s.tiles.map (·.pos) := by
  unfold Station.has_tile Station.get_tile
  rw [List.find?_isSome]
  constructor
  · rintro ⟨t, ht, hbeq⟩
    simp only [beq_iff_eq] at hbeq
    exact List.mem_map.mpr ⟨t, ht, hbeq⟩
  · rintro h
    obtain ⟨t, ht, rfl⟩ := List.mem_map.mp h
    exact ⟨t, ht, by simp⟩

/-- C9 counterexample: two generation runs with identical width, height
and random stream, differing only in the tile map's hash iteration order
at the furnishing step, stock the container on different tiles — the
hash order, which Rust does not derive from the game seed, influences the
result. -/
theorem generation_determinism_counterexample :
    ((generate 2 2 fullRand wallOrder2x2 fridgeOrderA).get_tile ⟨0, 0⟩).map
      (·.items.length) = some 1 ∧
    ((generate 2 2 fullRand wallOrder2x2 fridgeOrderB).get_tile ⟨0, 0⟩).map
      (·.items.length) = some 0 ∧
    ((generate 2 2 fullRand wallOrder2x2 fridgeOrderB).get_tile ⟨1, 1⟩).map
      (·.items.length) = some 1 := by
  decide

/-- C9 amended: the set of tile positions and the tile type at every
position (including the wall sub-direction, which is always `Full`) are
fully determined by the dimensions and the seeded random stream — any two
hash iteration orders that cover the floor tiles give pointwise equal tile
kinds; only the choice of the stocked container's tile depends on the
hash iteration order (see the counterexample). -/
theorem generation_determinism_amended :
    ∀ (w h : Nat) (rand : Nat → Bool) (wo1 wo2 fo1 fo2 : List GridPosition),
      (∀ q, FloorAt (smoothPhase w h (seedPhase w h rand)) q → q ∈ wo1) →
      (∀ q, FloorAt (smoothPhase w h (seedPhase w h rand)) q → q ∈ wo2) →
      ∀ p, ((generate w h rand wo1 fo1).get_tile p).map (·.kind) =
           ((generate w h rand wo2 fo2).get_tile p).map (·.kind) := by
  intro w h rand wo1 wo2 fo1 fo2 h1 h2 p
  unfold generate
  rw [fridgePhase_kind, fridgePhase_kind]
  by_cases hc : (smoothPhase w h (seedPhase w h rand)).has_tile p = false ∧
      ∃ q, FloorAt (smoothPhase w h (seedPhase w h rand)) q ∧ Adj8 q p
  · rw [wallPhase_get_tile_pos _ _ h1 _ hc, wallPhase_get_tile_pos _ _ h2 _ hc]
  · rw [wallPhase_get_tile_neg _ _ h1 _ hc, wallPhase_get_tile_neg _ _ h2 _ hc]

/-- Witness for the amended C9: the concrete 2x2 fully seeded generation
with two different furnishing orders agrees on the tile kind at (2,2). -/
theorem generation_determinism_amended_witness :
    ((generate 2 2 fullRand wallOrder2x2 fridgeOrderA).get_tile ⟨2, 2⟩).map (·.kind) =
    ((generate 2 2 fullRand wallOrder2x2 fridgeOrderB).get_tile ⟨2, 2⟩).map (·.kind) := by
  have hcover : ∀ q, FloorAt (smoothPhase 2 2 (seedPhase 2 2 fullRand)) q →
      q ∈ wallOrder2x2 := by
    intro q hq
    have hmem := (Station.has_tile_iff_mem _ _).mp (FloorAt_has_tile _ _ hq)
    rwa [show (smoothPhase 2 2 (seedPhase 2 2 fullRand)).tiles.map (·.pos) = wallOrder2x2
      by decide] at hmem
  exact generation_determinism_amended 2 2 fullRand wallOrder2x2 wallOrder2x2
    fridgeOrderA fridgeOrderB hcover hcover ⟨2, 2⟩

theorem Item.soundListB_append (l1 l2 : List Item) :
    Item.soundListB (l1 ++ l2) = (Item.soundListB l1 && Item.soundListB l2) := by
  induction l1 with
  | nil => simp [Item.soundListB]
  | cons a as ih => simp [Item.soundListB, ih, Bool.and_assoc]

/-- C7: a container whose item list has reached its capacity rejects
`add_item` with the typed capacity error and is left unchanged; the
capacity invariant `items.length ≤ capacity` (recursively, for nested
contents too) holds for every `Item::new` result and is preserved by
`add_item`; capacities are 10 for containers and 0 for everything else,
and a new fridge comes exactly full. -/
theorem container_capacity_invariant :
    (∀ (i x : Item), i.capacity ≤ i.items.length →
      (i.add_item x).2 = .error "Container is at capacity" ∧ (i.add_item x).1 = i) ∧
    (∀ (i x : Item), Item.Sound i → Item.Sound x → Item.Sound (i.add_item x).1) ∧
    (∀ (p : GridPosition) (k : ItemType), Item.Sound (Item.new p k)) ∧
    (∀ (p : GridPosition) (c : ContainerType), (Item.new p (.Container c)).capacity = 10) ∧
    (∀ (p : GridPosition) (k : ItemType), (∀ c, k ≠ .Container c) →
      (Item.new p k).capacity = 0) ∧
    (∀ (p : GridPosition), (Item.new p (.Container .Fridge)).items.length = 10) := by
  refine ⟨?_, ?_, ?_, ?_, ?_, ?_⟩
  · intro i x h
    unfold Item.add_item
    rw [if_pos h]
    exact ⟨rfl, rfl⟩
  · intro i x hi hx
    obtain ⟨k, p, l, c⟩ := i
    unfold Item.add_item
    split
    · exact hi
    · rename_i hlt
      have hlt' : ¬ (c ≤ l.length) := hlt
      unfold Item.Sound at hi ⊢
      simp only [Item.soundB, Item.soundListB_append, Item.soundListB,
        Bool.and_eq_true, Nat.ble_eq, List.length_append, List.length_cons,
        List.length_nil, and_true] at hi ⊢
      exact ⟨by omega, hi.2, hx⟩
  · intro p k
    cases k with
    | Food f => simp [Item.new, Item.Sound, Item.soundB, Item.soundListB]
    | Drink d => simp [Item.new, Item.Sound, Item.soundB, Item.soundListB]
    | Container c =>
      cases c with
      | Fridge =>
        simp [Item.new, Item.Sound, Item.soundB, Item.soundListB, Item.addUnwrap,
          Item.add_item, Item.capacity, Item.items, Item.kind, Item.pos]
      | Locker => simp [Item.new, Item.Sound, Item.soundB, Item.soundListB]
  · intro p c
    cases c with
    | Fridge =>
      simp [Item.new, Item.addUnwrap, Item.add_item, Item.capacity, Item.items,
        Item.kind, Item.pos]
    | Locker => simp [Item.new, Item.capacity]
  · intro p k hk
    cases k with
    | Food f => simp [Item.new, Item.capacity]
    | Drink d => simp [Item.new, Item.capacity]
    | Container c => exact absurd rfl (hk c)
  · intro p
    simp [Item.new, Item.addUnwrap, Item.add_item, Item.capacity, Item.items,
      Item.kind, Item.pos]

/-- Witness for C7 at concrete inputs. -/
theorem container_capacity_invariant_witness :
    ((fullLocker.add_item (.mk (.Food .EnergyBar) ⟨0, 0⟩ [] 0)).2 =
      .error "Container is at capacity" ∧
     (fullLocker.add_item (.mk (.Food .EnergyBar) ⟨0, 0⟩ [] 0)).1 = fullLocker) ∧
    Item.Sound ((Item.mk (.Container .Locker) ⟨0, 0⟩ [] 10).add_item
      (.mk (.Food .EnergyBar) ⟨0, 0⟩ [] 0)).1 ∧
    Item.Sound (Item.new ⟨2, 3⟩ (.Container .Fridge)) ∧
    (Item.new ⟨2, 3⟩ (.Container .Fridge)).capacity = 10 ∧
    (Item.new ⟨2, 3⟩ (.Food .EnergyBar)).capacity = 0 ∧
    (Item.new ⟨2, 3⟩ (.Container .Fridge)).items.length = 10 :=
  ⟨container_capacity_invariant.1 fullLocker _ (by decide),
   container_capacity_invariant.2.1 _ _ (by exact rfl) (by exact rfl),
   container_capacity_invariant.2.2.1 ⟨2, 3⟩ (.Container .Fridge),
   container_capacity_invariant.2.2.2.1 ⟨2, 3⟩ .Fridge,
   container_capacity_invariant.2.2.2.2.1 ⟨2, 3⟩ (.Food .EnergyBar)
     (by intro c; cases c <;> decide),
   container_capacity_invariant.2.2.2.2.2 ⟨2, 3⟩⟩

/-- C10: `eat` rewrites exactly the hunger field to a saturating
subtraction of the item's energy, `drink` does the same for thirst and
hydration, and the Eat/Drink behavior arms leave the inhabitant's
inventory untouched (the current tile is borrowed immutably by the source,
so its item list cannot change there either). -/
theorem consumption_frame :
    (∀ (i : Inhabitant) (item : Item),
      i.eat item = { i with hunger := i.hunger - item.get_energy }) ∧
    (∀ (i : Inhabitant) (item : Item),
      i.drink item = { i with thirst := i.thirst - item.get_hydration }) ∧
    (∀ (i : Inhabitant) (t : Tile), (i.eatBranchStep t).items = i.items) ∧
    (∀ (i : Inhabitant) (t : Tile), (i.drinkBranchStep t).items = i.items) := by
  refine ⟨fun i item => rfl, fun i item => rfl, ?_, ?_⟩
  · intro i t
    unfold Inhabitant.eatBranchStep
    split
    · rfl
    · split <;> rfl
  · intro i t
    unfold Inhabitant.drinkBranchStep
    split
    · rfl
    · split <;> rfl

theorem pickMax_mem (ms : List Movement) (acc : Movement) :
    ms.foldl (fun a c => if a.cmp c = .lt then c else a) acc = acc ∨
    ms.foldl (fun a c => if a.cmp c = .lt then c else a) acc ∈ ms := by
  induction ms generalizing acc with
  | nil => exact .inl rfl
  | cons b bs ih =>
    rw [List.foldl_cons]
    rcases ih (if acc.cmp b = .lt then b else acc) with heq | hmem
    · rw [heq]
      split
      · exact .inr (List.mem_cons_self _ _)
      · exact .inl rfl
    · exact .inr (List.mem_cons_of_mem _ hmem)

theorem popMax_mem {l : List Movement} {c : Movement} {r : List Movement}
    (h : popMax l = some (c, r)) : c ∈ l ∧ ∀ m ∈ r, m ∈ l := by
  cases l with
  | nil => cases h
  | cons a as =>
    unfold popMax at h
    dsimp only at h
    rw [Option.some.injEq, Prod.mk.injEq] at h
    obtain ⟨hc, hr⟩ := h
    have hmem : as.foldl (fun x d => if x.cmp d = .lt then d else x) a ∈ a :: as := by
      rcases pickMax_mem as a with heq | hm
      · rw [heq]; exact List.mem_cons_self _ _
      · exact List.mem_cons_of_mem _ hm
    constructor
    · rw [← hc]; exact hmem
    · intro m hmr
      rw [← hr] at hmr
      exact (a :: as).erase_subset _ hmr

theorem alistLookup_cons {α : Type} (k : GridPosition) (v : α)
    (l : List (GridPosition × α)) (p : GridPosition) :
    alistLookup ((k, v) :: l) p = if k = p then some v else alistLookup l p := by
  unfold alistLookup
  by_cases hkp : k = p
  · rw [if_pos hkp, List.find?_cons_of_pos _ (by simp [hkp])]
    rfl
  · rw [if_neg hkp, List.find?_cons_of_neg _ (by simp [hkp])]

theorem alistLookup_some_mem {α : Type} {l : List (GridPosition × α)}
    {p : GridPosition} {v : α} (h : alistLookup l p = some v) : (p, v) ∈ l := by
  unfold alistLookup at h
  cases hf : l.find? fun e => e.1 == p with
  | none => rw [hf] at h; cases h
  | some e =>
    rw [hf] at h
    have he := List.mem_of_find?_eq_some hf
    have hp := List.find?_some hf
    simp only [beq_iff_eq] at hp
    simp only [Option.map_some', Option.some.injEq] at h
    rw [← hp, ← h]
    exact he

theorem alistLookup_eq_none_of_no_key {α : Type} {l : List (GridPosition × α)}
    {p : GridPosition} (h : ∀ e ∈ l, e.1 ≠ p) : alistLookup l p = none := by
  unfold alistLookup
  rw [List.find?_eq_none.mpr fun e he => by simpa using h e he]
  rfl

theorem mem_get_neighbors {s : Station} {p : GridPosition} {next : Tile}
    (h : next ∈ s.get_neighbors p) :
    s.get_tile next.pos = some next ∧ p ∈ orthNeighbors next.pos := by
  simp only [Station.get_neighbors] at h
  have hbase : ∃ d ∈ [(⟨p.x + 1, p.y⟩ : GridPosition), ⟨p.x - 1, p.y⟩,
      ⟨p.x, p.y - 1⟩, ⟨p.x, p.y + 1⟩], s.get_tile d = some next := by
    split at h
    · obtain ⟨d, hd, hfd⟩ := List.mem_filterMap.mp h
      exact ⟨d, List.mem_reverse.mp hd, hfd⟩
    · obtain ⟨d, hd, hfd⟩ := List.mem_filterMap.mp h
      exact ⟨d, hd, hfd⟩
  obtain ⟨d, hd, hfd⟩ := hbase
  have hpos : next.pos = d := by
    have := List.find?_some hfd
    simpa using this
  have htile : s.get_tile next.pos = some next := by rw [hpos]; exact hfd
  refine ⟨htile, ?_⟩
  rw [hpos]
  simp only [List.mem_cons, List.mem_singleton, List.not_mem_nil, or_false] at hd
  rcases hd with rfl | rfl | rfl | rfl <;>
    simp [orthNeighbors, GridPosition.mk.injEq] <;> omega

theorem searchGo_none (s : Station) (target : GridPosition) (st : SState)
    (h : popMax st.frontier = none) : searchGo s target st = st := by
  unfold searchGo
  split
  · rfl
  · rename_i current rest hp
    rw [h] at hp
    cases hp

theorem searchGo_break (s : Station) (target : GridPosition) (st : SState)
    (current : Movement) (rest : List Movement)
    (h : popMax st.frontier = some (current, rest)) (ht : current.pos = target) :
    searchGo s target st = { st with frontier := rest } := by
  unfold searchGo
  split
  · rename_i hp
    rw [h] at hp
    cases hp
  · rename_i c r hp
    rw [h] at hp
    rw [Option.some.injEq, Prod.mk.injEq] at hp
    obtain ⟨rfl, rfl⟩ := hp
    rw [if_pos ht]

theorem searchGo_step (s : Station) (target : GridPosition) (st : SState)
    (current : Movement) (rest : List Movement)
    (h : popMax st.frontier = some (current, rest)) (ht : ¬ current.pos = target) :
    searchGo s target st =
      searchGo s target
        ((s.get_neighbors current.pos).foldl (relaxNeighbor s target current)
          { st with frontier := rest }) := by
  conv_lhs => rw [searchGo]
  split
  · rename_i hp
    rw [h] at hp
    cases hp
  · rename_i c r hp
    rw [h] at hp
    rw [Option.some.injEq, Prod.mk.injEq] at hp
    obtain ⟨rfl, rfl⟩ := hp
    rw [if_neg ht]


theorem relax_SInv (s : Station) (start target : GridPosition) (current : Movement)
    (st : SState) (next : Tile) (hcur : okPosB s start current.pos = true)
    (hnext : s.get_tile next.pos = some next) (hinv : SInv s start st) :
    SInv s start (relaxNeighbor s target current st next) := by
  unfold relaxNeighbor
  dsimp only
  split
  · rcases hk : next.kind with _ | d | d
    all_goals dsimp only
    · refine ⟨?_, ?_⟩
      · intro m hm
        rcases List.mem_cons.mp hm with rfl | hm
        · unfold okPosB
          rw [hnext]
          simp [hk, TileType.isWall]
        · exact hinv.1 m hm
      · intro e he
        rcases mem_alistInsert he with rfl | he
        · refine ⟨?_, ?_⟩
          · unfold okPosB
            rw [hnext]
            simp [hk, TileType.isWall]
          · intro q hq
            cases hq
            exact hcur
        · exact hinv.2 e he
    · exact ⟨hinv.1, hinv.2⟩
    · refine ⟨?_, ?_⟩
      · intro m hm
        rcases List.mem_cons.mp hm with rfl | hm
        · unfold okPosB
          rw [hnext]
          simp [hk, TileType.isWall]
        · exact hinv.1 m hm
      · intro e he
        rcases mem_alistInsert he with rfl | he
        · refine ⟨?_, ?_⟩
          · unfold okPosB
            rw [hnext]
            simp [hk, TileType.isWall]
          · intro q hq
            cases hq
            exact hcur
        · exact hinv.2 e he
  · exact hinv

theorem fold_relax_SInv (s : Station) (start target : GridPosition) (current : Movement)
    (hcur : okPosB s start current.pos = true) :
    ∀ (ts : List Tile) (st : SState), (∀ t ∈ ts, s.get_tile t.pos = some t) →
      SInv s start st →
      SInv s start (ts.foldl (relaxNeighbor s target current) st) := by
  intro ts
  induction ts with
  | nil => exact fun st _ hinv => hinv
  | cons t ts ih =>
    intro st hts hinv
    rw [List.foldl_cons]
    exact ih _ (fun u hu => hts u (List.mem_cons_of_mem _ hu))
      (relax_SInv s start target current st t hcur (hts t (List.mem_cons_self _ _)) hinv)

theorem searchGo_SInv (s : Station) (start target : GridPosition) :
    ∀ (st : SState), SInv s start st → SInv s start (searchGo s target st) := by
  intro st
  induction st using searchGo.induct s target with
  | case1 x hpop =>
    intro hinv
    rw [searchGo_none s target x hpop]
    exact hinv
  | case2 x current rest hpop ht =>
    intro hinv
    rw [searchGo_break s target x current rest hpop ht]
    exact ⟨fun m hm => hinv.1 m ((popMax_mem hpop).2 m hm), hinv.2⟩
  | case3 x current rest hpop ht ih =>
    intro hinv
    rw [searchGo_step s target x current rest hpop ht]
    apply ih
    apply fold_relax_SInv s start target current
      (hinv.1 current (popMax_mem hpop).1)
    · exact fun t htm => (mem_get_neighbors htm).1
    · exact ⟨fun m hm => hinv.1 m ((popMax_mem hpop).2 m hm), hinv.2⟩

theorem pathToGo_stuck (reachable : List (GridPosition × Option GridPosition))
    (start target : GridPosition) (hne : ¬ target = start)
    (hl : (alistLookup reachable target).getD none = none) :
    ∀ (fuel : Nat) (path : List GridPosition),
      pathToGo reachable start fuel target path = [] := by
  intro fuel
  induction fuel with
  | zero =>
    intro path
    unfold pathToGo
    rw [if_neg hne]
  | succ n ih =>
    intro path
    unfold pathToGo
    rw [if_neg hne]
    dsimp only
    rw [hl]
    exact ih _

theorem pathToGo_sound (s : Station) (start : GridPosition)
    (reachable : List (GridPosition × Option GridPosition))
    (hr : ∀ e ∈ reachable, okPosB s start e.1 = true ∧
      ∀ q, e.2 = some q → okPosB s start q = true) :
    ∀ (fuel : Nat) (current : GridPosition) (path : List GridPosition),
      (∀ p ∈ path, okPosB s start p = true ∧ p ≠ start) →
      ∀ p ∈ pathToGo reachable start fuel current path,
        okPosB s start p = true ∧ p ≠ start := by
  intro fuel
  induction fuel with
  | zero =>
    intro current path hpath p hp
    by_cases hcs : current = start
    · unfold pathToGo at hp
      rw [if_pos hcs] at hp
      exact hpath p (List.mem_reverse.mp hp)
    · unfold pathToGo at hp
      rw [if_neg hcs] at hp
      dsimp only at hp
      cases hp
  | succ n ih =>
    intro current path hpath p hp
    by_cases hcs : current = start
    · unfold pathToGo at hp
      rw [if_pos hcs] at hp
      exact hpath p (List.mem_reverse.mp hp)
    · unfold pathToGo at hp
      rw [if_neg hcs] at hp
      dsimp only at hp
      rcases hl : (alistLookup reachable current).getD none with _ | next
      · simp only [hl] at hp
        rw [pathToGo_stuck reachable start current hcs hl n (path ++ [current])] at hp
        cases hp
      · simp only [hl] at hp
        have hsome : alistLookup reachable current = some (some next) := by
          rcases ho : alistLookup reachable current with _ | v
          · rw [ho] at hl
            cases hl
          · rw [ho] at hl
            dsimp only [Option.getD] at hl
            rw [hl]
        have hmem := alistLookup_some_mem hsome
        have hcur := hr _ hmem
        refine ih next (path ++ [current]) ?_ p hp
        intro q hq
        rcases List.mem_append.mp hq with hq | hq
        · exact hpath q hq
        · rcases List.mem_singleton.mp hq with rfl
          exact ⟨hcur.1, hcs⟩

theorem okPosB_not_wall (s : Station) (start p : GridPosition)
    (h : okPosB s start p = true) (hne : p ≠ start) : isWallAtB s p = false := by
  unfold okPosB at h
  rcases Bool.or_eq_true_iff.mp h with hst | hok
  · exact absurd (by simpa using hst) hne
  · unfold isWallAtB
    cases hg : s.get_tile p with
    | none => rfl
    | some t =>
      rw [hg] at hok
      dsimp only at hok
      simp only [Bool.not_eq_true'] at hok
      exact hok

theorem searchInit_SInv (s : Station) (start : GridPosition) :
    SInv s start (searchInit start) := by
  constructor
  · intro m hm
    simp only [searchInit, List.mem_singleton] at hm
    subst hm
    simp [okPosB]
  · intro e he
    simp only [searchInit, List.mem_singleton] at he
    subst he
    refine ⟨by simp [okPosB], ?_⟩
    intro q hq
    cases hq

/-- C2: every position of a `path_to` result holds a non-Wall tile (in
particular none is a Wall position), and every key and recorded
predecessor of the map `search` returns is the start or a non-Wall tile
position: the expansion never records Wall tiles. -/
theorem pathfinding_wall_soundness (s : Station) (start target : GridPosition) :
    (s.path_to start target).all (fun p => !(isWallAtB s p)) = true ∧
    (s.search start target).all
      (fun e => okPosB s start e.1 &&
        (match e.2 with | some q => okPosB s start q | none => true)) = true := by
  have hs := searchGo_SInv s start target (searchInit start) (searchInit_SInv s start)
  have hr : ∀ e ∈ s.search start target, okPosB s start e.1 = true ∧
      ∀ q, e.2 = some q → okPosB s start q = true := hs.2
  constructor
  · rw [List.all_eq_true]
    intro p hp
    have h := pathToGo_sound s start (s.search start target) hr 10000 target []
      (by intro q hq; cases hq) p hp
    show (!(isWallAtB s p)) = true
    rw [Bool.not_eq_true']
    exact okPosB_not_wall s start p h.1 h.2
  · rw [List.all_eq_true]
    intro e he
    have h := hr e he
    show (okPosB s start e.1 &&
      (match e.2 with | some q => okPosB s start q | none => true)) = true
    rw [Bool.and_eq_true]
    refine ⟨h.1, ?_⟩
    rcases e2 : e.2 with _ | q
    · rfl
    · exact h.2 q e2

theorem relax_RInv (s : Station) (start target : GridPosition) (current : Movement)
    (st : SState) (next : Tile)
    (hcur : Reachable s start current.pos)
    (hnbr : s.get_tile next.pos = some next ∧ current.pos ∈ orthNeighbors next.pos)
    (hinv : RInv s start st) : RInv s start (relaxNeighbor s target current st next) := by
  unfold relaxNeighbor
  dsimp only
  split
  · rcases hk : next.kind with _ | d | d
    all_goals dsimp only
    · have hreach : Reachable s start next.pos :=
        .step hcur hnbr.1 (by rw [hk]; rfl) hnbr.2
      refine ⟨?_, ?_⟩
      · intro m hm
        rcases List.mem_cons.mp hm with rfl | hm
        · exact hreach
        · exact hinv.1 m hm
      · intro e he
        rcases mem_alistInsert he with rfl | he
        · exact hreach
        · exact hinv.2 e he
    · exact ⟨hinv.1, hinv.2⟩
    · have hreach : Reachable s start next.pos :=
        .step hcur hnbr.1 (by rw [hk]; rfl) hnbr.2
      refine ⟨?_, ?_⟩
      · intro m hm
        rcases List.mem_cons.mp hm with rfl | hm
        · exact hreach
        · exact hinv.1 m hm
      · intro e he
        rcases mem_alistInsert he with rfl | he
        · exact hreach
        · exact hinv.2 e he
  · exact hinv

theorem fold_relax_RInv (s : Station) (start target : GridPosition) (current : Movement)
    (hcur : Reachable s start current.pos) :
    ∀ (ts : List Tile) (st : SState),
      (∀ t ∈ ts, s.get_tile t.pos = some t ∧ current.pos ∈ orthNeighbors t.pos) →
      RInv s start st →
      RInv s start (ts.foldl (relaxNeighbor s target current) st) := by
  intro ts
  induction ts with
  | nil => exact fun st _ hinv => hinv
  | cons t ts ih =>
    intro st hts hinv
    rw [List.foldl_cons]
    exact ih _ (fun u hu => hts u (List.mem_cons_of_mem _ hu))
      (relax_RInv s start target current st t hcur (hts t (List.mem_cons_self _ _)) hinv)

theorem searchGo_RInv (s : Station) (start target : GridPosition) :
    ∀ (st : SState), RInv s start st → RInv s start (searchGo s target st) := by
  intro st
  induction st using searchGo.induct s target with
  | case1 x hpop =>
    intro hinv
    rw [searchGo_none s target x hpop]
    exact hinv
  | case2 x current rest hpop ht =>
    intro hinv
    rw [searchGo_break s target x current rest hpop ht]
    exact ⟨fun m hm => hinv.1 m ((popMax_mem hpop).2 m hm), hinv.2⟩
  | case3 x current rest hpop ht ih =>
    intro hinv
    rw [searchGo_step s target x current rest hpop ht]
    apply ih
    apply fold_relax_RInv s start target current
      (hinv.1 current (popMax_mem hpop).1)
    · exact fun t htm => mem_get_neighbors htm
    · exact ⟨fun m hm => hinv.1 m ((popMax_mem hpop).2 m hm), hinv.2⟩

/-- C3: when the target is not reachable from the start through non-Wall
tiles, the search never records the target, the backward walk from the
target can never step, and `path_to` terminates at the iteration cap with
the empty sequence. -/
theorem unreachable_target_empty_path (s : Station) (start target : GridPosition)
    (hunreach : ¬ Reachable s start target) :
    s.path_to start target = [] := by
  have hts : ¬ target = start := fun h => hunreach (by rw [h]; exact .refl)
  have hrinit : RInv s start (searchInit start) := by
    constructor
    · intro m hm
      simp only [searchInit, List.mem_singleton] at hm
      subst hm
      exact .refl
    · intro e he
      simp only [searchInit, List.mem_singleton] at he
      subst he
      exact .refl
  have hr := searchGo_RInv s start target (searchInit start) hrinit
  have hnone : alistLookup (s.search start target) target = none :=
    alistLookup_eq_none_of_no_key fun e he h => hunreach (h ▸ hr.2 e he)
  unfold Station.path_to
  apply pathToGo_stuck
  · exact hts
  · rw [hnone]
    rfl

theorem enclosed_reachable_eq (p : GridPosition)
    (h : Reachable test_station_enclosed ⟨0, 0⟩ p) : p = ⟨0, 0⟩ := by
  induction h with
  | refl => rfl
  | step hp ht hnw hadj ih =>
    rename_i a b t
    unfold Station.get_tile at ht
    have hmem := List.mem_of_find?_eq_some ht
    have hpos := List.find?_some ht
    have htl : test_station_enclosed.tiles = [Tile.new ⟨3, 4⟩ (.Wall .Full),
        Tile.new ⟨3, 2⟩ (.Wall .Full), Tile.new ⟨4, 3⟩ (.Wall .Full),
        Tile.new ⟨2, 3⟩ (.Wall .Full), Tile.new ⟨3, 3⟩ .Floor,
        Tile.new ⟨0, 0⟩ .Floor] := rfl
    rw [htl] at hmem
    simp only [List.mem_cons, List.not_mem_nil, or_false] at hmem
    rcases hmem with rfl | rfl | rfl | rfl | rfl | rfl
    · cases hnw
    · cases hnw
    · cases hnw
    · cases hnw
    · have hq : (⟨3, 3⟩ : GridPosition) = b := by simpa using hpos
      rw [ih] at hadj
      rw [← hq] at hadj
      exact absurd hadj (by decide)
    · have hq : (⟨0, 0⟩ : GridPosition) = b := by simpa using hpos
      exact hq.symm

/-- Witness for C3: in the fixture where the four orthogonal neighbors of
(3,3) are Full walls, (3,3) is unreachable and the path from (0,0) is
empty. -/
theorem unreachable_target_empty_path_witness :
    test_station_enclosed.path_to ⟨0, 0⟩ ⟨3, 3⟩ = [] :=
  unreachable_target_empty_path test_station_enclosed ⟨0, 0⟩ ⟨3, 3⟩
    (fun h => absurd (enclosed_reachable_eq ⟨3, 3⟩ h) (by decide))

theorem relax_AInv (s : Station) (target : GridPosition) (current : Movement)
    (st : SState) (next : Tile)
    (hnbr : s.get_tile next.pos = some next ∧ current.pos ∈ orthNeighbors next.pos)
    (hinv : ∀ e ∈ st.came_from, ∀ q, e.2 = some q → q ∈ orthNeighbors e.1) :
    ∀ e ∈ (relaxNeighbor s target current st next).came_from, ∀ q, e.2 = some q →
      q ∈ orthNeighbors e.1 := by
  unfold relaxNeighbor
  dsimp only
  split
  · rcases hk : next.kind with _ | d | d
    all_goals dsimp only
    · intro e he q hq
      rcases mem_alistInsert he with rfl | he
      · cases hq
        exact hnbr.2
      · exact hinv e he q hq
    · exact hinv
    · intro e he q hq
      rcases mem_alistInsert he with rfl | he
      · cases hq
        exact hnbr.2
      · exact hinv e he q hq
  · exact hinv

theorem fold_relax_AInv (s : Station) (target : GridPosition) (current : Movement) :
    ∀ (ts : List Tile) (st : SState),
      (∀ t ∈ ts, s.get_tile t.pos = some t ∧ current.pos ∈ orthNeighbors t.pos) →
      (∀ e ∈ st.came_from, ∀ q, e.2 = some q → q ∈ orthNeighbors e.1) →
      ∀ e ∈ (ts.foldl (relaxNeighbor s target current) st).came_from, ∀ q,
        e.2 = some q → q ∈ orthNeighbors e.1 := by
  intro ts
  induction ts with
  | nil => exact fun st _ hinv => hinv
  | cons t ts ih =>
    intro st hts hinv
    rw [List.foldl_cons]
    exact ih _ (fun u hu => hts u (List.mem_cons_of_mem _ hu))
      (relax_AInv s target current st t (hts t (List.mem_cons_self _ _)) hinv)

theorem searchGo_AInv (s : Station) (target : GridPosition) :
    ∀ (st : SState), (∀ e ∈ st.came_from, ∀ q, e.2 = some q → q ∈ orthNeighbors e.1) →
      ∀ e ∈ (searchGo s target st).came_from, ∀ q, e.2 = some q →
        q ∈ orthNeighbors e.1 := by
  intro st
  induction st using searchGo.induct s target with
  | case1 x hpop =>
    intro hinv
    rw [searchGo_none s target x hpop]
    exact hinv
  | case2 x current rest hpop ht =>
    intro hinv
    rw [searchGo_break s target x current rest hpop ht]
    exact hinv
  | case3 x current rest hpop ht ih =>
    intro hinv
    rw [searchGo_step s target x current rest hpop ht]
    apply ih
    apply fold_relax_AInv s target current
    · exact fun t htm => mem_get_neighbors htm
    · exact hinv

theorem manhattanDist_comm (a b : GridPosition) :
    manhattanDist a b = manhattanDist b a := by
  unfold manhattanDist
  omega

theorem manhattan_adj (p q r : GridPosition) (h : q ∈ orthNeighbors p) :
    manhattanDist p r ≤ manhattanDist q r + 1 := by
  simp only [orthNeighbors, List.mem_cons, List.not_mem_nil, or_false] at h
  rcases h with rfl | rfl | rfl | rfl
  all_goals unfold manhattanDist
  all_goals dsimp only
  all_goals omega

theorem pathToGo_far (reachable : List (GridPosition × Option GridPosition))
    (start : GridPosition)
    (hA : ∀ e ∈ reachable, ∀ q, e.2 = some q → q ∈ orthNeighbors e.1) :
    ∀ (fuel : Nat) (current : GridPosition) (path : List GridPosition),
      fuel < manhattanDist current start →
      pathToGo reachable start fuel current path = [] := by
  intro fuel
  induction fuel with
  | zero =>
    intro current path hd
    have hne : ¬ current = start := by
      intro h
      rw [h] at hd
      unfold manhattanDist at hd
      omega
    unfold pathToGo
    rw [if_neg hne]
  | succ n ih =>
    intro current path hd
    have hne : ¬ current = start := by
      intro h
      rw [h] at hd
      unfold manhattanDist at hd
      omega
    unfold pathToGo
    rw [if_neg hne]
    dsimp only
    rcases hl : (alistLookup reachable current).getD none with _ | next
    · apply ih
      show n < manhattanDist current start
      omega
    · apply ih
      show n < manhattanDist next start
      have hsome : alistLookup reachable current = some (some next) := by
        rcases ho : alistLookup reachable current with _ | v
        · rw [ho] at hl
          cases hl
        · rw [ho] at hl
          dsimp only [Option.getD] at hl
          rw [hl]
      have hadj := hA _ (alistLookup_some_mem hsome) next rfl
      have hstep := manhattan_adj current next start hadj
      omega

theorem path_to_far (s : Station) (start target : GridPosition)
    (hfar : 10000 < manhattanDist target start) : s.path_to start target = [] := by
  have hA : ∀ e ∈ s.search start target, ∀ q, e.2 = some q → q ∈ orthNeighbors e.1 := by
    apply searchGo_AInv
    intro e he q hq
    simp only [searchInit, List.mem_singleton] at he
    subst he
    cases hq
  unfold Station.path_to
  exact pathToGo_far (s.search start target) start hA 10000 target [] hfar

theorem searchGoF_agree (s : Station) (target : GridPosition) :
    ∀ (n : Nat) (st out : SState), searchGoF s target n st = some out →
      searchGo s target st = out := by
  intro n
  induction n with
  | zero =>
    intro st out h
    cases h
  | succ n ih =>
    intro st out h
    unfold searchGoF at h
    rcases hpop : popMax st.frontier with _ | ⟨current, rest⟩
    · rw [hpop] at h
      dsimp only at h
      cases h
      exact searchGo_none s target st hpop
    · rw [hpop] at h
      dsimp only at h
      by_cases ht : current.pos = target
      · rw [if_pos ht] at h
        cases h
        exact searchGo_break s target st current rest hpop ht
      · rw [if_neg ht] at h
        rw [searchGo_step s target st current rest hpop ht]
        exact ih _ _ h

theorem search_full_eval :
    searchGo test_station_full ⟨2, 2⟩ (searchInit ⟨1, 1⟩) =
      (searchGoF test_station_full ⟨2, 2⟩ 40 (searchInit ⟨1, 1⟩)).getD
        (searchInit ⟨1, 1⟩) :=
  searchGoF_agree _ _ 40 _ _ rfl

theorem search_walled_eval :
    searchGo test_station_walled ⟨2, 2⟩ (searchInit ⟨1, 1⟩) =
      (searchGoF test_station_walled ⟨2, 2⟩ 40 (searchInit ⟨1, 1⟩)).getD
        (searchInit ⟨1, 1⟩) :=
  searchGoF_agree _ _ 40 _ _ rfl

theorem path_to_full_eval :
    test_station_full.path_to ⟨1, 1⟩ ⟨2, 2⟩ = [⟨1, 2⟩, ⟨2, 2⟩] := by
  unfold Station.path_to Station.search
  rw [search_full_eval]
  rfl

theorem path_to_walled_eval :
    test_station_walled.path_to ⟨1, 1⟩ ⟨2, 2⟩ = [] := by
  unfold Station.path_to Station.search
  rw [search_walled_eval]
  apply pathToGo_stuck
  · decide
  · rfl

/-- Counterexample to C1: in an open 1-wide rectangular room of Floor
tiles with no internal walls, whose two end positions are 10,002 apart,
the 10,000-iteration reconstruction cap makes `path_to` return the empty
sequence, whose length is not the Manhattan distance. -/
theorem pathfinding_length_counterexample :
    (corridor.get_tile ⟨0, 0⟩).map Tile.kind = some TileType.Floor ∧
    (corridor.get_tile ⟨0, 10002⟩).map Tile.kind = some TileType.Floor ∧
    manhattanDist ⟨0, 0⟩ ⟨0, 10002⟩ = 10002 ∧
    (corridor.path_to ⟨0, 0⟩ ⟨0, 10002⟩).length ≠
      manhattanDist ⟨0, 0⟩ ⟨0, 10002⟩ := by
  refine ⟨rfl, rfl, by decide, ?_⟩
  rw [path_to_far corridor ⟨0, 0⟩ ⟨0, 10002⟩ (by decide)]
  decide

theorem dist_eq_manh (a b : GridPosition) :
    GridPosition.distance a b = (manhattanDist a b : Int) := by
  unfold GridPosition.distance manhattanDist
  rw [Int.abs_eq_natAbs, Int.abs_eq_natAbs]
  omega

theorem movement_heuristic_eq (s : Station) (a b : GridPosition) :
    s.movement_heuristic a b = manhattanDist a b := by
  unfold Station.movement_heuristic manhattanDist
  rw [Int.abs_eq_natAbs, Int.abs_eq_natAbs]
  omega

theorem mem_orthNeighbors_manh {a b : GridPosition} (h : a ∈ orthNeighbors b) :
    manhattanDist a b = 1 := by
  simp only [orthNeighbors, List.mem_cons, List.not_mem_nil, or_false] at h
  rcases h with rfl | rfl | rfl | rfl
  all_goals unfold manhattanDist
  all_goals dsimp only
  all_goals omega

theorem mem_orthNeighbors_ne {a b : GridPosition} (h : a ∈ orthNeighbors b) : a ≠ b := by
  intro he
  have hm := mem_orthNeighbors_manh h
  rw [he] at hm
  unfold manhattanDist at hm
  omega

theorem movement_cost_adj (s : Station) {p q : GridPosition} (h : p ∈ orthNeighbors q)
    (t : Tile) (ht : t.pos = q) : s.movement_cost p t = 1000 := by
  unfold Station.movement_cost
  rw [ht, dist_eq_manh, mem_orthNeighbors_manh h]
  decide

theorem manhattanDist_zero {a b : GridPosition} (h : manhattanDist a b = 0) : a = b := by
  obtain ⟨ax, ay⟩ := a
  obtain ⟨bx, by2⟩ := b
  unfold manhattanDist at h
  dsimp only at h
  have hx : ax = bx := by omega
  have hy : ay = by2 := by omega
  rw [hx, hy]

theorem manhattanDist_self (a : GridPosition) : manhattanDist a a = 0 := by
  unfold manhattanDist
  omega

theorem manhattan_triangle (a b c : GridPosition) :
    manhattanDist a c ≤ manhattanDist a b + manhattanDist b c := by
  unfold manhattanDist
  omega

theorem manhattan_adj_r {p q : GridPosition} (h : q ∈ orthNeighbors p) (r : GridPosition) :
    manhattanDist r p ≤ manhattanDist r q + 1 := by
  have h1 := manhattan_adj p q r h
  have h2 := manhattanDist_comm r p
  have h3 := manhattanDist_comm r q
  omega

theorem alistLookup_insert_self {α : Type} (l : List (GridPosition × α))
    (p : GridPosition) (v : α) : alistLookup (alistInsert l p v) p = some v := by
  unfold alistInsert
  rw [alistLookup_cons, if_pos rfl]

theorem alistLookup_insert_ne {α : Type} (l : List (GridPosition × α))
    (p q : GridPosition) (v : α) (h : p ≠ q) :
    alistLookup (alistInsert l p v) q = alistLookup l q := by
  unfold alistInsert
  rw [alistLookup_cons, if_neg h]

theorem movement_cmp_lt_cost {a b : Movement} (h : a.cmp b = .lt) : b.cost ≤ a.cost := by
  unfold Movement.cmp at h
  rw [Nat.compare_def_lt] at h
  split at h
  · omega
  · split at h
    · cases h
    · omega

theorem movement_cmp_not_lt_cost {a b : Movement} (h : ¬ a.cmp b = .lt) :
    a.cost ≤ b.cost := by
  unfold Movement.cmp at h
  rw [Nat.compare_def_lt] at h
  split at h
  · exact absurd rfl h
  · split at h <;> omega

theorem popMax_min {l : List Movement} {c : Movement} {r : List Movement}
    (h : popMax l = some (c, r)) : ∀ m ∈ l, c.cost ≤ m.cost := by
  have key : ∀ (ms : List Movement) (acc : Movement),
      (ms.foldl (fun acc cur => if acc.cmp cur = .lt then cur else acc) acc).cost ≤
        acc.cost ∧
      ∀ m ∈ ms,
        (ms.foldl (fun acc cur => if acc.cmp cur = .lt then cur else acc) acc).cost ≤
          m.cost := by
    intro ms
    induction ms with
    | nil =>
      intro acc
      exact ⟨Nat.le_refl _, by intro m hm; cases hm⟩
    | cons b bs ih =>
      intro acc
      rw [List.foldl_cons]
      have hstep : (if acc.cmp b = .lt then b else acc).cost ≤ acc.cost ∧
          (if acc.cmp b = .lt then b else acc).cost ≤ b.cost := by
        split
        · rename_i hc
          exact ⟨movement_cmp_lt_cost hc, Nat.le_refl _⟩
        · rename_i hc
          exact ⟨Nat.le_refl _, movement_cmp_not_lt_cost hc⟩
      have hih := ih (if acc.cmp b = .lt then b else acc)
      refine ⟨Nat.le_trans hih.1 hstep.1, ?_⟩
      intro m hm
      rcases List.mem_cons.mp hm with rfl | hm
      · exact Nat.le_trans hih.1 hstep.2
      · exact hih.2 m hm
  cases l with
  | nil => cases h
  | cons a as =>
    unfold popMax at h
    dsimp only at h
    injection h with h1
    injection h1 with hbest _
    intro m hm
    rcases List.mem_cons.mp hm with rfl | hm
    · exact hbest ▸ (key as m).1
    · exact hbest ▸ (key as a).2 m hm

theorem popMax_none {l : List Movement} (h : popMax l = none) : l = [] := by
  cases l with
  | nil => rfl
  | cons a as =>
    unfold popMax at h
    exact Option.noConfusion h

theorem get_tile_some_pos {s : Station} {p : GridPosition} {t : Tile}
    (h : s.get_tile p = some t) : t.pos = p := by
  unfold Station.get_tile at h
  have hf := List.find?_some h
  simpa using hf

theorem mem_get_neighbors_of {s : Station} {p u : GridPosition} {t : Tile}
    (hu : u ∈ orthNeighbors p) (ht : s.get_tile u = some t) :
    t ∈ s.get_neighbors p := by
  unfold Station.get_neighbors
  dsimp only
  by_cases hpar : (p.x + p.y) % 2 = 0
  · rw [if_pos hpar, List.mem_filterMap]
    exact ⟨u, by rw [List.mem_reverse]; simpa [orthNeighbors] using hu, ht⟩
  · rw [if_neg hpar, List.mem_filterMap]
    exact ⟨u, by simpa [orthNeighbors] using hu, ht⟩

theorem roomBound {x0 x1 y0 y1 : Int} {p q : GridPosition}
    (hx0 : -2147483648 ≤ x0) (hx1 : x1 ≤ 2147483647)
    (hy0 : -2147483648 ≤ y0) (hy1 : y1 ≤ 2147483647)
    (hp : inRoom x0 x1 y0 y1 p) (hq : inRoom x0 x1 y0 y1 q) :
    1000 * manhattanDist p q + 2000 < usizeMax := by
  obtain ⟨hp1, hp2, hp3, hp4⟩ := hp
  obtain ⟨hq1, hq2, hq3, hq4⟩ := hq
  unfold manhattanDist usizeMax
  have h64 : (2 : Nat) ^ 64 - 1 = 18446744073709551615 := by norm_num
  rw [h64]
  omega

theorem stepToward {x0 x1 y0 y1 : Int} {A v : GridPosition}
    (hA : inRoom x0 x1 y0 y1 A) (hv : inRoom x0 x1 y0 y1 v) (hne : v ≠ A) :
    ∃ w, inRoom x0 x1 y0 y1 w ∧ v ∈ orthNeighbors w ∧
      manhattanDist A w + 1 = manhattanDist A v := by
  obtain ⟨ax, ay⟩ := A
  obtain ⟨vx, vy⟩ := v
  obtain ⟨ha1, ha2, ha3, ha4⟩ := hA
  obtain ⟨hv1, hv2, hv3, hv4⟩ := hv
  dsimp only at ha1 ha2 ha3 ha4 hv1 hv2 hv3 hv4
  by_cases hx : vx = ax
  · have hy : ¬ vy = ay := by
      intro h
      exact hne (by rw [hx, h])
    by_cases hlt : ay < vy
    · refine ⟨⟨vx, vy - 1⟩, ?_, ?_, ?_⟩
      · show x0 ≤ vx ∧ vx ≤ x1 ∧ y0 ≤ vy - 1 ∧ vy - 1 ≤ y1
        omega
      · simp only [orthNeighbors, List.mem_cons, List.not_mem_nil, or_false,
          GridPosition.mk.injEq, true_and, and_true]
        omega
      · unfold manhattanDist
        dsimp only
        omega
    · refine ⟨⟨vx, vy + 1⟩, ?_, ?_, ?_⟩
      · show x0 ≤ vx ∧ vx ≤ x1 ∧ y0 ≤ vy + 1 ∧ vy + 1 ≤ y1
        omega
      · simp only [orthNeighbors, List.mem_cons, List.not_mem_nil, or_false,
          GridPosition.mk.injEq, true_and, and_true]
        omega
      · unfold manhattanDist
        dsimp only
        omega
  · by_cases hlt : ax < vx
    · refine ⟨⟨vx - 1, vy⟩, ?_, ?_, ?_⟩
      · show x0 ≤ vx - 1 ∧ vx - 1 ≤ x1 ∧ y0 ≤ vy ∧ vy ≤ y1
        omega
      · simp only [orthNeighbors, List.mem_cons, List.not_mem_nil, or_false,
          GridPosition.mk.injEq, true_and, and_true]
        omega
      · unfold manhattanDist
        dsimp only
        omega
    · refine ⟨⟨vx + 1, vy⟩, ?_, ?_, ?_⟩
      · show x0 ≤ vx + 1 ∧ vx + 1 ≤ x1 ∧ y0 ≤ vy ∧ vy ≤ y1
        omega
      · simp only [orthNeighbors, List.mem_cons, List.not_mem_nil, or_false,
          GridPosition.mk.injEq, true_and, and_true]
        omega
      · unfold manhattanDist
        dsimp only
        omega

theorem okPosB_kind {s : Station} {A q : GridPosition} {tt : Tile}
    (h : okPosB s A q = true) (hne : q ≠ A) (hg : s.get_tile q = some tt) :
    tt.kind.isWall = false := by
  have hw := okPosB_not_wall s A q h hne
  unfold isWallAtB at hw
  rw [hg] at hw
  dsimp only at hw
  exact hw

theorem relax_cost_mono (s : Station) (B : GridPosition) (current : Movement)
    (st0 : SState) (t : Tile) :
    ∀ q c, alistLookup st0.cost_so_far q = some c →
      ∃ c', alistLookup (relaxNeighbor s B current st0 t).cost_so_far q = some c' ∧
        c' ≤ c := by
  intro q c hq
  unfold relaxNeighbor
  dsimp only
  split
  · rename_i hlt
    rcases hk : t.kind with _ | d | d
    all_goals dsimp only
    all_goals by_cases hqp : t.pos = q
    all_goals first
      | (subst hqp
         rw [hq] at hlt
         exact ⟨_, alistLookup_insert_self _ _ _, Nat.le_of_lt (by simpa using hlt)⟩)
      | (rw [alistLookup_insert_ne _ _ _ _ hqp, hq]
         exact ⟨c, rfl, Nat.le_refl c⟩)
  · exact ⟨c, hq, Nat.le_refl c⟩

theorem relax_cost_other (s : Station) (B : GridPosition) (current : Movement)
    (st0 : SState) (t : Tile) (q : GridPosition) (hne : t.pos ≠ q) :
    alistLookup (relaxNeighbor s B current st0 t).cost_so_far q =
      alistLookup st0.cost_so_far q := by
  unfold relaxNeighbor
  dsimp only
  split
  · rcases hk : t.kind with _ | d | d
    all_goals dsimp only
    all_goals exact alistLookup_insert_ne _ _ _ _ hne
  · rfl

theorem relax_cf_mono (s : Station) (B : GridPosition) (current : Movement)
    (st0 : SState) (t : Tile) (q : GridPosition)
    (h : (alistLookup st0.came_from q).isSome = true) :
    (alistLookup (relaxNeighbor s B current st0 t).came_from q).isSome = true := by
  unfold relaxNeighbor
  dsimp only
  split
  · rcases hk : t.kind with _ | d | d
    all_goals dsimp only
    · by_cases hqp : t.pos = q
      · subst hqp
        rw [alistLookup_insert_self]
        rfl
      · rw [alistLookup_insert_ne _ _ _ _ hqp]
        exact h
    · exact h
    · by_cases hqp : t.pos = q
      · subst hqp
        rw [alistLookup_insert_self]
        rfl
      · rw [alistLookup_insert_ne _ _ _ _ hqp]
        exact h
  · exact h

theorem relax_frontier_mono (s : Station) (B : GridPosition) (current : Movement)
    (st0 : SState) (t : Tile) (m : Movement) (h : m ∈ st0.frontier) :
    m ∈ (relaxNeighbor s B current st0 t).frontier := by
  unfold relaxNeighbor
  dsimp only
  split
  · rcases hk : t.kind with _ | d | d
    all_goals dsimp only
    · exact List.mem_cons_of_mem _ h
    · exact h
    · exact List.mem_cons_of_mem _ h
  · exact h

theorem relax_cover (s : Station) (B : GridPosition) (current : Movement)
    (st0 : SState) (t : Tile) (gv : Nat)
    (hadj : current.pos ∈ orthNeighbors t.pos)
    (hgcur : alistLookup st0.cost_so_far current.pos = some gv)
    (hnm : gv + 1000 < usizeMax) :
    ∃ c', alistLookup (relaxNeighbor s B current st0 t).cost_so_far t.pos = some c' ∧
      c' ≤ gv + 1000 := by
  have hmc : s.movement_cost current.pos t = 1000 := movement_cost_adj s hadj t rfl
  unfold relaxNeighbor
  dsimp only
  rw [hgcur, hmc]
  simp only [Option.getD_some]
  split
  · rcases hk : t.kind with _ | d | d
    all_goals dsimp only
    all_goals exact ⟨gv + 1000, alistLookup_insert_self _ _ _, Nat.le_refl _⟩
  · rename_i hlt
    rcases ho : alistLookup st0.cost_so_far t.pos with _ | c0
    · rw [ho] at hlt
      exact absurd hnm (by simpa using hlt)
    · rw [ho] at hlt
      exact ⟨c0, rfl, by simpa using hlt⟩

theorem relax_new (s : Station) (B : GridPosition) (current : Movement)
    (st0 : SState) (t : Tile) (gv : Nat)
    (hadj : current.pos ∈ orthNeighbors t.pos)
    (hgcur : alistLookup st0.cost_so_far current.pos = some gv) :
    ∀ q c', alistLookup (relaxNeighbor s B current st0 t).cost_so_far q = some c' →
      alistLookup st0.cost_so_far q = some c' ∨
      (q = t.pos ∧ c' = gv + 1000 ∧
        ((∃ d, t.kind = .Wall d) ∨
          (⟨gv + 1000 + s.movement_heuristic t.pos B, t.pos⟩ : Movement) ∈
            (relaxNeighbor s B current st0 t).frontier)) := by
  intro q c' hq'
  have hmc : s.movement_cost current.pos t = 1000 := movement_cost_adj s hadj t rfl
  have hfr : ∀ (hlt : gv + 1000 <
      (alistLookup st0.cost_so_far t.pos).getD usizeMax),
      (∃ d, t.kind = .Wall d) ∨
        (⟨gv + 1000 + s.movement_heuristic t.pos B, t.pos⟩ : Movement) ∈
          (relaxNeighbor s B current st0 t).frontier := by
    intro hlt
    rcases hk : t.kind with _ | d | d
    · right
      unfold relaxNeighbor
      dsimp only
      rw [hgcur, hmc]
      simp only [Option.getD_some]
      rw [if_pos hlt, hk]
      dsimp only
      exact List.mem_cons_self _ _
    · exact .inl ⟨d, rfl⟩
    · right
      unfold relaxNeighbor
      dsimp only
      rw [hgcur, hmc]
      simp only [Option.getD_some]
      rw [if_pos hlt, hk]
      dsimp only
      exact List.mem_cons_self _ _
  unfold relaxNeighbor at hq'
  dsimp only at hq'
  rw [hgcur, hmc] at hq'
  dsimp only [Option.getD] at hq'
  revert hq'
  split
  · rename_i hlt
    intro hq'
    rcases hk2 : t.kind with _ | d | d
    all_goals rw [hk2] at hq'
    all_goals dsimp only at hq'
    all_goals by_cases hqp : q = t.pos
    · subst hqp
      rw [alistLookup_insert_self] at hq'
      exact .inr ⟨rfl, (Option.some.injEq _ _ ▸ hq').symm, hk2 ▸ hfr hlt⟩
    · rw [alistLookup_insert_ne _ _ _ _ (fun h => hqp h.symm)] at hq'
      exact .inl hq'
    · subst hqp
      rw [alistLookup_insert_self] at hq'
      exact .inr ⟨rfl, (Option.some.injEq _ _ ▸ hq').symm, hk2 ▸ hfr hlt⟩
    · rw [alistLookup_insert_ne _ _ _ _ (fun h => hqp h.symm)] at hq'
      exact .inl hq'
    · subst hqp
      rw [alistLookup_insert_self] at hq'
      exact .inr ⟨rfl, (Option.some.injEq _ _ ▸ hq').symm, hk2 ▸ hfr hlt⟩
    · rw [alistLookup_insert_ne _ _ _ _ (fun h => hqp h.symm)] at hq'
      exact .inl hq'
  · intro hq'
    exact .inl hq'

theorem wall_core (s : Station) (A B : GridPosition) (current : Movement)
    (st0 : SState) (t : Tile) (gv : Nat)
    (htile : s.get_tile t.pos = some t)
    (hadj : current.pos ∈ orthNeighbors t.pos)
    (hgcur : alistLookup st0.cost_so_far current.pos = some gv)
    (inv : CoreInv s A st0)
    (hlt : gv + 1000 < (alistLookup st0.cost_so_far t.pos).getD usizeMax)
    (hw : t.kind.isWall = true) :
    CoreInv s A
      { frontier := st0.frontier, came_from := st0.came_from,
        cost_so_far := alistInsert st0.cost_so_far t.pos (gv + 1000) } := by
  have hpa : t.pos ≠ A := by
    intro h
    rw [h, inv.costA] at hlt
    simp at hlt
  constructor
  · show alistLookup (alistInsert st0.cost_so_far t.pos (gv + 1000)) A = some 0
    rw [alistLookup_insert_ne _ _ _ _ hpa]
    exact inv.costA
  · exact inv.cameA
  · intro m hm
    obtain ⟨c, hc, hle⟩ := inv.frontierCost m hm
    by_cases hmp : t.pos = m.pos
    · rw [← hmp] at hc
      rw [hc] at hlt
      refine ⟨gv + 1000, ?_, ?_⟩
      · show alistLookup (alistInsert st0.cost_so_far t.pos (gv + 1000)) m.pos = _
        rw [← hmp]
        exact alistLookup_insert_self _ _ _
      · have h2 : gv + 1000 < c := by simpa using hlt
        omega
    · exact ⟨c, by
        show alistLookup (alistInsert st0.cost_so_far t.pos (gv + 1000)) m.pos = _
        rw [alistLookup_insert_ne _ _ _ _ hmp]; exact hc, hle⟩
  · exact inv.frontierCame
  · exact inv.sinv
  · intro q v hq hqA
    obtain ⟨p, cq, cp, hv, hpq, hcq, hcp, hle, hcfp⟩ := inv.walkStep q v hq hqA
    have hqt : q ≠ t.pos := by
      intro h
      have hmem := alistLookup_some_mem hq
      have hokq := (inv.sinv.2 _ hmem).1
      have hkind := okPosB_kind hokq hqA (by rw [h]; exact htile)
      rw [hw] at hkind
      exact Bool.noConfusion hkind
    have hpt : p ≠ t.pos := by
      intro h
      by_cases hpA : p = A
      · exact hpa (by rw [← h, hpA])
      · have hmem := alistLookup_some_mem hq
        have hokp := (inv.sinv.2 _ hmem).2 p (by rw [hv])
        have hkind := okPosB_kind hokp hpA (by rw [h]; exact htile)
        rw [hw] at hkind
        exact Bool.noConfusion hkind
    refine ⟨p, cq, cp, hv, hpq, ?_, ?_, hle, hcfp⟩
    · show alistLookup (alistInsert st0.cost_so_far t.pos (gv + 1000)) q = _
      rw [alistLookup_insert_ne _ _ _ _ (fun hh => hqt hh.symm)]
      exact hcq
    · show alistLookup (alistInsert st0.cost_so_far t.pos (gv + 1000)) p = _
      rw [alistLookup_insert_ne _ _ _ _ (fun hh => hpt hh.symm)]
      exact hcp
  · intro q c hq
    by_cases hqt : q = t.pos
    · subst hqt
      rw [alistLookup_insert_self] at hq
      injection hq with hq
      have h1 := inv.lower current.pos gv hgcur
      have h2 := manhattan_adj_r hadj A
      omega
    · rw [alistLookup_insert_ne _ _ _ _ (fun hh => hqt hh.symm)] at hq
      exact inv.lower q c hq
  · intro q c hq
    by_cases hqt : q = t.pos
    · subst hqt
      left
      unfold isWallAtB
      rw [htile]
      exact hw
    · rw [alistLookup_insert_ne _ _ _ _ (fun hh => hqt hh.symm)] at hq
      exact inv.costCame q c hq

theorem push_core (s : Station) (A B : GridPosition) (current : Movement)
    (st0 : SState) (t : Tile) (gv : Nat)
    (htile : s.get_tile t.pos = some t)
    (hadj : current.pos ∈ orthNeighbors t.pos)
    (hgcur : alistLookup st0.cost_so_far current.pos = some gv)
    (hcfc : (alistLookup st0.came_from current.pos).isSome = true)
    (hok : okPosB s A current.pos = true)
    (inv : CoreInv s A st0)
    (hlt : gv + 1000 < (alistLookup st0.cost_so_far t.pos).getD usizeMax)
    (hnw : t.kind.isWall = false) :
    CoreInv s A
      { frontier := ⟨gv + 1000 + s.movement_heuristic t.pos B, t.pos⟩ :: st0.frontier,
        came_from := alistInsert st0.came_from t.pos (some current.pos),
        cost_so_far := alistInsert st0.cost_so_far t.pos (gv + 1000) } := by
  have hpa : t.pos ≠ A := by
    intro h
    rw [h, inv.costA] at hlt
    simp at hlt
  have hcne : current.pos ≠ t.pos := mem_orthNeighbors_ne hadj
  have hokt : okPosB s A t.pos = true := by
    unfold okPosB
    rw [htile]
    simp [hnw]
  constructor
  · show alistLookup (alistInsert st0.cost_so_far t.pos (gv + 1000)) A = some 0
    rw [alistLookup_insert_ne _ _ _ _ hpa]
    exact inv.costA
  · show alistLookup (alistInsert st0.came_from t.pos (some current.pos)) A = some none
    rw [alistLookup_insert_ne _ _ _ _ hpa]
    exact inv.cameA
  · intro m hm
    rcases List.mem_cons.mp hm with rfl | hm
    · exact ⟨gv + 1000, alistLookup_insert_self _ _ _, Nat.le_add_right _ _⟩
    · obtain ⟨c, hc, hle⟩ := inv.frontierCost m hm
      by_cases hmp : t.pos = m.pos
      · rw [← hmp] at hc
        rw [hc] at hlt
        refine ⟨gv + 1000, ?_, ?_⟩
        · show alistLookup (alistInsert st0.cost_so_far t.pos (gv + 1000)) m.pos = _
          rw [← hmp]
          exact alistLookup_insert_self _ _ _
        · have h2 : gv + 1000 < c := by simpa using hlt
          omega
      · exact ⟨c, by
          show alistLookup (alistInsert st0.cost_so_far t.pos (gv + 1000)) m.pos = _
          rw [alistLookup_insert_ne _ _ _ _ hmp]; exact hc, hle⟩
  · intro m hm
    rcases List.mem_cons.mp hm with rfl | hm
    · show (alistLookup (alistInsert st0.came_from t.pos (some current.pos)) t.pos).isSome = true
      rw [alistLookup_insert_self]
      rfl
    · by_cases hmp : t.pos = m.pos
      · show (alistLookup (alistInsert st0.came_from t.pos (some current.pos)) m.pos).isSome = true
        rw [← hmp, alistLookup_insert_self]
        rfl
      · show (alistLookup (alistInsert st0.came_from t.pos (some current.pos)) m.pos).isSome = true
        rw [alistLookup_insert_ne _ _ _ _ hmp]
        exact inv.frontierCame m hm
  · constructor
    · intro m hm
      rcases List.mem_cons.mp hm with rfl | hm
      · exact hokt
      · exact inv.sinv.1 m hm
    · intro e he
      rcases mem_alistInsert he with rfl | he
      · refine ⟨hokt, ?_⟩
        intro q' hq'
        cases hq'
        exact hok
      · exact inv.sinv.2 e he
  · intro q v hq hqA
    by_cases hqt : q = t.pos
    · subst hqt
      rw [alistLookup_insert_self] at hq
      injection hq with hq
      refine ⟨current.pos, gv + 1000, gv, hq.symm, hadj,
        alistLookup_insert_self _ _ _, ?_, Nat.le_refl _, ?_⟩
      · show alistLookup (alistInsert st0.cost_so_far t.pos (gv + 1000)) current.pos = _
        rw [alistLookup_insert_ne _ _ _ _ (fun hh => hcne hh.symm)]
        exact hgcur
      · show (alistLookup (alistInsert st0.came_from t.pos (some current.pos))
          current.pos).isSome = true
        rw [alistLookup_insert_ne _ _ _ _ (fun hh => hcne hh.symm)]
        exact hcfc
    · rw [alistLookup_insert_ne _ _ _ _ (fun hh => hqt hh.symm)] at hq
      obtain ⟨p, cq, cp, hv, hpq, hcq, hcp, hle, hcfp⟩ := inv.walkStep q v hq hqA
      by_cases hpt : p = t.pos
      · subst hpt
        rw [hcp] at hlt
        have h2 : gv + 1000 < cp := by simpa using hlt
        refine ⟨t.pos, cq, gv + 1000, hv, hpq, ?_,
          alistLookup_insert_self _ _ _, by omega, ?_⟩
        · show alistLookup (alistInsert st0.cost_so_far t.pos (gv + 1000)) q = _
          rw [alistLookup_insert_ne _ _ _ _ (fun hh => hqt hh.symm)]
          exact hcq
        · show (alistLookup (alistInsert st0.came_from t.pos (some current.pos))
            t.pos).isSome = true
          rw [alistLookup_insert_self]
          rfl
      · refine ⟨p, cq, cp, hv, hpq, ?_, ?_, hle, ?_⟩
        · show alistLookup (alistInsert st0.cost_so_far t.pos (gv + 1000)) q = _
          rw [alistLookup_insert_ne _ _ _ _ (fun hh => hqt hh.symm)]
          exact hcq
        · show alistLookup (alistInsert st0.cost_so_far t.pos (gv + 1000)) p = _
          rw [alistLookup_insert_ne _ _ _ _ (fun hh => hpt hh.symm)]
          exact hcp
        · show (alistLookup (alistInsert st0.came_from t.pos (some current.pos))
            p).isSome = true
          rw [alistLookup_insert_ne _ _ _ _ (fun hh => hpt hh.symm)]
          exact hcfp
  · intro q c hq
    by_cases hqt : q = t.pos
    · subst hqt
      rw [alistLookup_insert_self] at hq
      injection hq with hq
      have h1 := inv.lower current.pos gv hgcur
      have h2 := manhattan_adj_r hadj A
      omega
    · rw [alistLookup_insert_ne _ _ _ _ (fun hh => hqt hh.symm)] at hq
      exact inv.lower q c hq
  · intro q c hq
    by_cases hqt : q = t.pos
    · subst hqt
      right
      show (alistLookup (alistInsert st0.came_from t.pos (some current.pos))
        t.pos).isSome = true
      rw [alistLookup_insert_self]
      rfl
    · rw [alistLookup_insert_ne _ _ _ _ (fun hh => hqt hh.symm)] at hq
      rcases inv.costCame q c hq with hl | hr
      · exact .inl hl
      · right
        show (alistLookup (alistInsert st0.came_from t.pos (some current.pos))
          q).isSome = true
        rw [alistLookup_insert_ne _ _ _ _ (fun hh => hqt hh.symm)]
        exact hr

theorem relax_core (s : Station) (A B : GridPosition) (current : Movement)
    (st0 : SState) (t : Tile) (gv : Nat)
    (htile : s.get_tile t.pos = some t)
    (hadj : current.pos ∈ orthNeighbors t.pos)
    (hgcur : alistLookup st0.cost_so_far current.pos = some gv)
    (hcfc : (alistLookup st0.came_from current.pos).isSome = true)
    (hok : okPosB s A current.pos = true)
    (inv : CoreInv s A st0) :
    CoreInv s A (relaxNeighbor s B current st0 t) := by
  have hmc : s.movement_cost current.pos t = 1000 := movement_cost_adj s hadj t rfl
  unfold relaxNeighbor
  dsimp only
  rw [hgcur, hmc]
  simp only [Option.getD_some]
  split
  · rename_i hlt
    rcases hk : t.kind with _ | d | d
    all_goals dsimp only
    · exact push_core s A B current st0 t gv htile hadj hgcur hcfc hok inv hlt
        (by rw [hk]; rfl)
    · exact wall_core s A B current st0 t gv htile hadj hgcur inv hlt
        (by rw [hk]; rfl)
    · exact push_core s A B current st0 t gv htile hadj hgcur hcfc hok inv hlt
        (by rw [hk]; rfl)
  · exact inv

theorem fold_cost_mono (s : Station) (B : GridPosition) (current : Movement) :
    ∀ (ts : List Tile) (st0 : SState) (q : GridPosition) (c : Nat),
      alistLookup st0.cost_so_far q = some c →
      ∃ c', alistLookup (ts.foldl (relaxNeighbor s B current) st0).cost_so_far q =
        some c' ∧ c' ≤ c := by
  intro ts
  induction ts with
  | nil => exact fun st0 q c hq => ⟨c, hq, Nat.le_refl c⟩
  | cons t ts ih =>
    intro st0 q c hq
    rw [List.foldl_cons]
    obtain ⟨c1, hc1, hle1⟩ := relax_cost_mono s B current st0 t q c hq
    obtain ⟨c2, hc2, hle2⟩ := ih _ q c1 hc1
    exact ⟨c2, hc2, Nat.le_trans hle2 hle1⟩

theorem fold_cf_mono (s : Station) (B : GridPosition) (current : Movement) :
    ∀ (ts : List Tile) (st0 : SState) (q : GridPosition),
      (alistLookup st0.came_from q).isSome = true →
      (alistLookup (ts.foldl (relaxNeighbor s B current) st0).came_from q).isSome =
        true := by
  intro ts
  induction ts with
  | nil => exact fun st0 q h => h
  | cons t ts ih =>
    intro st0 q h
    rw [List.foldl_cons]
    exact ih _ q (relax_cf_mono s B current st0 t q h)

theorem fold_frontier_mono (s : Station) (B : GridPosition) (current : Movement) :
    ∀ (ts : List Tile) (st0 : SState) (m : Movement), m ∈ st0.frontier →
      m ∈ (ts.foldl (relaxNeighbor s B current) st0).frontier := by
  intro ts
  induction ts with
  | nil => exact fun st0 m h => h
  | cons t ts ih =>
    intro st0 m h
    rw [List.foldl_cons]
    exact ih _ m (relax_frontier_mono s B current st0 t m h)

theorem fold_cost_other (s : Station) (B : GridPosition) (current : Movement) :
    ∀ (ts : List Tile) (st0 : SState) (q : GridPosition), (∀ t ∈ ts, t.pos ≠ q) →
      alistLookup (ts.foldl (relaxNeighbor s B current) st0).cost_so_far q =
        alistLookup st0.cost_so_far q := by
  intro ts
  induction ts with
  | nil => exact fun st0 q _ => rfl
  | cons t ts ih =>
    intro st0 q hts
    rw [List.foldl_cons]
    rw [ih _ q (fun u hu => hts u (List.mem_cons_of_mem _ hu))]
    exact relax_cost_other s B current st0 t q (hts t (List.mem_cons_self _ _))

theorem fold_core (s : Station) (A B : GridPosition) (current : Movement) (gv : Nat)
    (hok : okPosB s A current.pos = true) :
    ∀ (ts : List Tile) (st0 : SState),
      (∀ t ∈ ts, s.get_tile t.pos = some t ∧ current.pos ∈ orthNeighbors t.pos) →
      alistLookup st0.cost_so_far current.pos = some gv →
      (alistLookup st0.came_from current.pos).isSome = true →
      CoreInv s A st0 →
      CoreInv s A (ts.foldl (relaxNeighbor s B current) st0) ∧
        alistLookup (ts.foldl (relaxNeighbor s B current) st0).cost_so_far
          current.pos = some gv := by
  intro ts
  induction ts with
  | nil => exact fun st0 _ hg _ inv => ⟨inv, hg⟩
  | cons t ts ih =>
    intro st0 hts hg hcf inv
    rw [List.foldl_cons]
    have ht := hts t (List.mem_cons_self _ _)
    have hg1 : alistLookup (relaxNeighbor s B current st0 t).cost_so_far current.pos =
        some gv := by
      rw [relax_cost_other s B current st0 t current.pos
        (Ne.symm (mem_orthNeighbors_ne ht.2))]
      exact hg
    have hcf1 := relax_cf_mono s B current st0 t current.pos hcf
    have hinv1 := relax_core s A B current st0 t gv ht.1 ht.2 hg hcf hok inv
    exact ih _ (fun u hu => hts u (List.mem_cons_of_mem _ hu)) hg1 hcf1 hinv1

theorem fold_cover (s : Station) (B : GridPosition) (current : Movement) (gv : Nat)
    (hnm : gv + 1000 < usizeMax) :
    ∀ (ts : List Tile) (st0 : SState),
      (∀ t ∈ ts, s.get_tile t.pos = some t ∧ current.pos ∈ orthNeighbors t.pos) →
      alistLookup st0.cost_so_far current.pos = some gv →
      ∀ t0 ∈ ts, ∃ c',
        alistLookup (ts.foldl (relaxNeighbor s B current) st0).cost_so_far t0.pos =
          some c' ∧ c' ≤ gv + 1000 := by
  intro ts
  induction ts with
  | nil =>
    intro st0 _ _ t0 h
    cases h
  | cons t ts ih =>
    intro st0 hts hg t0 ht0
    rw [List.foldl_cons]
    have ht := hts t (List.mem_cons_self _ _)
    have hg1 : alistLookup (relaxNeighbor s B current st0 t).cost_so_far current.pos =
        some gv := by
      rw [relax_cost_other s B current st0 t current.pos
        (Ne.symm (mem_orthNeighbors_ne ht.2))]
      exact hg
    rcases List.mem_cons.mp ht0 with rfl | ht0
    · obtain ⟨c1, hc1, hle1⟩ := relax_cover s B current st0 t0 gv ht.2 hg hnm
      obtain ⟨c2, hc2, hle2⟩ := fold_cost_mono s B current ts _ t0.pos c1 hc1
      exact ⟨c2, hc2, Nat.le_trans hle2 hle1⟩
    · exact ih _ (fun u hu => hts u (List.mem_cons_of_mem _ hu)) hg1 t0 ht0

theorem fold_new (s : Station) (B : GridPosition) (current : Movement) (gv : Nat) :
    ∀ (ts : List Tile) (st0 : SState),
      (∀ t ∈ ts, s.get_tile t.pos = some t ∧ current.pos ∈ orthNeighbors t.pos) →
      alistLookup st0.cost_so_far current.pos = some gv →
      ∀ q c', alistLookup (ts.foldl (relaxNeighbor s B current) st0).cost_so_far q =
          some c' →
        alistLookup st0.cost_so_far q = some c' ∨
        (∃ t ∈ ts, q = t.pos ∧ c' = gv + 1000 ∧
          ((∃ d, t.kind = .Wall d) ∨
            (⟨gv + 1000 + s.movement_heuristic t.pos B, t.pos⟩ : Movement) ∈
              (ts.foldl (relaxNeighbor s B current) st0).frontier)) := by
  intro ts
  induction ts with
  | nil =>
    intro st0 _ _ q c' h
    exact .inl h
  | cons t ts ih =>
    intro st0 hts hg q c' hq
    rw [List.foldl_cons] at hq ⊢
    have ht := hts t (List.mem_cons_self _ _)
    have hg1 : alistLookup (relaxNeighbor s B current st0 t).cost_so_far current.pos =
        some gv := by
      rw [relax_cost_other s B current st0 t current.pos
        (Ne.symm (mem_orthNeighbors_ne ht.2))]
      exact hg
    rcases ih _ (fun u hu => hts u (List.mem_cons_of_mem _ hu)) hg1 q c' hq with
      h1 | ⟨t2, ht2, rest⟩
    · rcases relax_new s B current st0 t gv ht.2 hg q c' h1 with h2 | ⟨hq2, hc2, h3⟩
      · exact .inl h2
      · right
        refine ⟨t, List.mem_cons_self _ _, hq2, hc2, ?_⟩
        rcases h3 with hw | hmem
        · exact .inl hw
        · exact .inr (fold_frontier_mono s B current ts _ _ hmem)
    · exact .inr ⟨t2, List.mem_cons_of_mem _ ht2, rest⟩

theorem popMax_rest {l : List Movement} {c : Movement} {r : List Movement}
    (h : popMax l = some (c, r)) : r = l.erase c := by
  cases l with
  | nil => cases h
  | cons a as =>
    unfold popMax at h
    dsimp only at h
    injection h with h1
    injection h1 with hbest hrest
    rw [hbest] at hrest
    exact hrest.symm

theorem astar_init (s : Station) (A B : GridPosition) (x0 x1 y0 y1 : Int) :
    AStarInv s A B x0 x1 y0 y1 (searchInit A) := by
  refine { toCoreInv := ?_, prop := ?_ }
  · constructor
    · show alistLookup ((A, 0) :: []) A = some 0
      rw [alistLookup_cons, if_pos rfl]
    · show alistLookup ((A, (none : Option GridPosition)) :: []) A = some none
      rw [alistLookup_cons, if_pos rfl]
    · intro m hm
      rcases List.mem_cons.mp hm with rfl | hm
      · refine ⟨0, ?_, Nat.le_refl 0⟩
        show alistLookup ((A, 0) :: []) A = some 0
        rw [alistLookup_cons, if_pos rfl]
      · cases hm
    · intro m hm
      rcases List.mem_cons.mp hm with rfl | hm
      · show (alistLookup ((A, (none : Option GridPosition)) :: []) A).isSome = true
        rw [alistLookup_cons, if_pos rfl]
        rfl
      · cases hm
    · constructor
      · intro m hm
        rcases List.mem_cons.mp hm with rfl | hm
        · unfold okPosB
          simp
        · cases hm
      · intro e he
        rcases List.mem_cons.mp he with rfl | he
        · refine ⟨by unfold okPosB; simp, ?_⟩
          intro q hq
          cases hq
        · cases he
    · intro q v hq hqA
      rw [show searchInit A = ⟨[⟨0, A⟩], [(A, none)], [(A, 0)]⟩ from rfl] at hq
      dsimp only at hq
      rw [alistLookup_cons] at hq
      by_cases hAq : A = q
      · exact absurd hAq.symm hqA
      · rw [if_neg hAq] at hq
        cases hq
    · intro q c hq
      rw [show searchInit A = ⟨[⟨0, A⟩], [(A, none)], [(A, 0)]⟩ from rfl] at hq
      dsimp only at hq
      rw [alistLookup_cons] at hq
      by_cases hAq : A = q
      · rw [if_pos hAq] at hq
        injection hq with hq
        rw [← hAq, manhattanDist_self]
        omega
      · rw [if_neg hAq] at hq
        cases hq
    · intro q c hq
      rw [show searchInit A = ⟨[⟨0, A⟩], [(A, none)], [(A, 0)]⟩ from rfl] at hq
      dsimp only at hq
      rw [alistLookup_cons] at hq
      by_cases hAq : A = q
      · right
        show (alistLookup ((A, (none : Option GridPosition)) :: []) q).isSome = true
        rw [alistLookup_cons, if_pos hAq]
        rfl
      · rw [if_neg hAq] at hq
        cases hq
  · intro w hwR hwopt
    rw [show searchInit A = ⟨[⟨0, A⟩], [(A, none)], [(A, 0)]⟩ from rfl] at hwopt
    dsimp only at hwopt
    rw [alistLookup_cons] at hwopt
    by_cases hAw : A = w
    · left
      refine ⟨0, Nat.zero_le _, ?_⟩
      rw [← hAw]
      exact List.mem_cons_self _ _
    · rw [if_neg hAw] at hwopt
      cases hwopt

theorem iter_preserve (s : Station) (A B : GridPosition) (x0 x1 y0 y1 : Int)
    (hx0 : -2147483648 ≤ x0) (hx1 : x1 ≤ 2147483647)
    (hy0 : -2147483648 ≤ y0) (hy1 : y1 ≤ 2147483647)
    (hroom : ∀ p, inRoom x0 x1 y0 y1 p →
      ∃ t, s.get_tile p = some t ∧ t.kind = .Floor)
    (hA : inRoom x0 x1 y0 y1 A)
    (st : SState) (current : Movement) (rest : List Movement)
    (hpop : popMax st.frontier = some (current, rest))
    (inv : AStarInv s A B x0 x1 y0 y1 st) :
    AStarInv s A B x0 x1 y0 y1
      ((s.get_neighbors current.pos).foldl (relaxNeighbor s B current)
        { st with frontier := rest }) := by
  obtain ⟨hcur_mem, hrest_sub⟩ := popMax_mem hpop
  obtain ⟨gv, hg, hgle⟩ := inv.frontierCost current hcur_mem
  have hcf := inv.frontierCame current hcur_mem
  have hok := inv.sinv.1 current hcur_mem
  have hts : ∀ t ∈ s.get_neighbors current.pos,
      s.get_tile t.pos = some t ∧ current.pos ∈ orthNeighbors t.pos :=
    fun t htm => mem_get_neighbors htm
  have hcore0 : CoreInv s A { st with frontier := rest } := by
    constructor
    · exact inv.costA
    · exact inv.cameA
    · exact fun m hm => inv.frontierCost m (hrest_sub m hm)
    · exact fun m hm => inv.frontierCame m (hrest_sub m hm)
    · exact ⟨fun m hm => inv.sinv.1 m (hrest_sub m hm), inv.sinv.2⟩
    · exact inv.walkStep
    · exact inv.lower
    · exact inv.costCame
  have hfold := fold_core s A B current gv hok (s.get_neighbors current.pos)
    { st with frontier := rest } hts hg hcf hcore0
  refine { toCoreInv := hfold.1, prop := ?_ }
  intro w hwR hwopt
  by_cases hwc : w = current.pos
  · subst hwc
    have h2 := hfold.2.symm.trans hwopt
    injection h2 with h2
    right
    intro u huR huadj hufwd
    obtain ⟨tu, htu, hku⟩ := hroom u huR
    have htu_pos : tu.pos = u := get_tile_some_pos htu
    have htu_mem : tu ∈ s.get_neighbors current.pos := mem_get_neighbors_of huadj htu
    have hnm : gv + 1000 < usizeMax := by
      have hb := roomBound hx0 hx1 hy0 hy1 hA hwR
      omega
    obtain ⟨c', hc', hcle⟩ := fold_cover s B current gv hnm
      (s.get_neighbors current.pos) { st with frontier := rest } hts hg tu htu_mem
    rw [htu_pos] at hc'
    have hlow := hfold.1.lower u c' hc'
    have hceq : c' = 1000 * manhattanDist A u := by
      rw [hufwd] at hlow ⊢
      omega
    rw [hc', hceq]
  · have hwnew := fold_new s B current gv (s.get_neighbors current.pos)
      { st with frontier := rest } hts hg w _ hwopt
    rcases hwnew with hpre | ⟨t2, ht2, hqe, hceq, hdisj⟩
    · rcases inv.prop w hwR hpre with ⟨f, hf, hfm⟩ | hdone
      · left
        refine ⟨f, hf, ?_⟩
        have hne2 : (⟨f, w⟩ : Movement) ≠ current := by
          intro h
          exact hwc (congrArg Movement.pos h)
        have hmem : (⟨f, w⟩ : Movement) ∈ rest := by
          rw [popMax_rest hpop]
          exact (List.mem_erase_of_ne hne2).mpr hfm
        exact fold_frontier_mono s B current _ _ _ hmem
      · right
        intro u huR huadj hufwd
        have hu := hdone u huR huadj hufwd
        obtain ⟨c2, hc2, hle2⟩ := fold_cost_mono s B current
          (s.get_neighbors current.pos) { st with frontier := rest } u _ hu
        have hlow := hfold.1.lower u c2 hc2
        have hceq2 : c2 = 1000 * manhattanDist A u := by omega
        rw [hc2, hceq2]
    · rcases hdisj with ⟨d, hwall⟩ | hpush
      · obtain ⟨tf, htf, hkf⟩ := hroom w hwR
        have ht2f := (hts t2 ht2).1
        rw [← hqe, htf] at ht2f
        injection ht2f with ht2f
        rw [← ht2f, hkf] at hwall
        cases hwall
      · left
        refine ⟨gv + 1000 + s.movement_heuristic t2.pos B, ?_, ?_⟩
        · rw [movement_heuristic_eq, ← hqe]
          omega
        · rw [hqe]
          exact hpush

theorem reach_opt (s : Station) (A B : GridPosition) (x0 x1 y0 y1 : Int)
    (hA : inRoom x0 x1 y0 y1 A) (st : SState)
    (costA : alistLookup st.cost_so_far A = some 0)
    (lower : ∀ q c, alistLookup st.cost_so_far q = some c →
      1000 * manhattanDist A q ≤ c)
    (hprop : ∀ w, inRoom x0 x1 y0 y1 w →
      alistLookup st.cost_so_far w = some (1000 * manhattanDist A w) →
      (∃ f, f ≤ 1000 * manhattanDist A w + manhattanDist w B ∧
        (⟨f, w⟩ : Movement) ∈ st.frontier) ∨
      (∀ u, inRoom x0 x1 y0 y1 u → u ∈ orthNeighbors w →
        manhattanDist A u = manhattanDist A w + 1 →
        alistLookup st.cost_so_far u = some (1000 * manhattanDist A u)))
    (hkill : ∀ w f, inRoom x0 x1 y0 y1 w →
      manhattanDist A w + manhattanDist w B = manhattanDist A B →
      manhattanDist A w < manhattanDist A B →
      f ≤ 1000 * manhattanDist A w + manhattanDist w B →
      (⟨f, w⟩ : Movement) ∈ st.frontier → False) :
    ∀ (k : Nat) (v : GridPosition), inRoom x0 x1 y0 y1 v →
      manhattanDist A v + manhattanDist v B = manhattanDist A B →
      manhattanDist A v = k →
      alistLookup st.cost_so_far v = some (1000 * manhattanDist A v) := by
  intro k
  induction k with
  | zero =>
    intro v hvR hvpath hv0
    have hv : A = v := manhattanDist_zero hv0
    rw [← hv, manhattanDist_self]
    simpa using costA
  | succ k ih =>
    intro v hvR hvpath hvk
    have hvne : v ≠ A := by
      intro h
      rw [h, manhattanDist_self] at hvk
      cases hvk
    obtain ⟨w, hwR, hvw, hwk⟩ := stepToward hA hvR hvne
    have hdw1 : manhattanDist w v = 1 := by
      have h1 := mem_orthNeighbors_manh hvw
      have h2 := manhattanDist_comm v w
      omega
    have hwpath : manhattanDist A w + manhattanDist w B = manhattanDist A B := by
      have htri1 := manhattan_triangle A w B
      have htri2 := manhattan_triangle w v B
      have htri3 := manhattan_triangle A v B
      omega
    have hwklt : manhattanDist A w = k := by omega
    have hwopt := ih w hwR hwpath hwklt
    rcases hprop w hwR hwopt with ⟨f, hf, hfm⟩ | hdone
    · exact (hkill w f hwR hwpath (by omega) hf hfm).elim
    · exact hdone v hvR hvw (by omega)

theorem searchGo_optimal (s : Station) (A B : GridPosition) (x0 x1 y0 y1 : Int)
    (hx0 : -2147483648 ≤ x0) (hx1 : x1 ≤ 2147483647)
    (hy0 : -2147483648 ≤ y0) (hy1 : y1 ≤ 2147483647)
    (hroom : ∀ p, inRoom x0 x1 y0 y1 p →
      ∃ t, s.get_tile p = some t ∧ t.kind = .Floor)
    (hA : inRoom x0 x1 y0 y1 A) (hB : inRoom x0 x1 y0 y1 B) :
    ∀ st, AStarInv s A B x0 x1 y0 y1 st → SearchOut A B (searchGo s B st) := by
  intro st
  induction st using searchGo.induct s B with
  | case1 x hpop =>
    intro inv
    rw [searchGo_none s B x hpop]
    have hempty : x.frontier = [] := popMax_none hpop
    have hBopt := reach_opt s A B x0 x1 y0 y1 hA x inv.costA inv.lower inv.prop
      (fun w f hwR hwp hwlt hf hm => by rw [hempty] at hm; cases hm)
      (manhattanDist A B) B hB (by rw [manhattanDist_self]; omega) rfl
    refine { cameA := inv.cameA, walkStep := inv.walkStep, lower := inv.lower,
             costB := hBopt, cameB := ?_ }
    rcases inv.costCame B _ hBopt with hwall | hcf
    · obtain ⟨tf, htf, hkf⟩ := hroom B hB
      unfold isWallAtB at hwall
      rw [htf] at hwall
      dsimp only at hwall
      rw [hkf] at hwall
      cases hwall
    · exact hcf
  | case2 x current rest hpop ht =>
    intro inv
    rw [searchGo_break s B x current rest hpop ht]
    have hkill : ∀ w f, inRoom x0 x1 y0 y1 w →
        manhattanDist A w + manhattanDist w B = manhattanDist A B →
        manhattanDist A w < manhattanDist A B →
        f ≤ 1000 * manhattanDist A w + manhattanDist w B →
        (⟨f, w⟩ : Movement) ∈ x.frontier → False := by
      intro w f hwR hwpath hwlt hf hm
      have hmin : current.cost ≤ f := popMax_min hpop _ hm
      obtain ⟨cB, hcB, hcBle⟩ := inv.frontierCost current (popMax_mem hpop).1
      have hlB := inv.lower current.pos cB hcB
      rw [ht] at hlB
      omega
    have hBopt := reach_opt s A B x0 x1 y0 y1 hA x inv.costA inv.lower inv.prop hkill
      (manhattanDist A B) B hB (by rw [manhattanDist_self]; omega) rfl
    refine { cameA := inv.cameA, walkStep := inv.walkStep, lower := inv.lower,
             costB := hBopt, cameB := ?_ }
    rcases inv.costCame B _ hBopt with hwall | hcf
    · obtain ⟨tf, htf, hkf⟩ := hroom B hB
      unfold isWallAtB at hwall
      rw [htf] at hwall
      dsimp only at hwall
      rw [hkf] at hwall
      cases hwall
    · exact hcf
  | case3 x current rest hpop ht ih =>
    intro inv
    rw [searchGo_step s B x current rest hpop ht]
    exact ih (iter_preserve s A B x0 x1 y0 y1 hx0 hx1 hy0 hy1 hroom hA
      x current rest hpop inv)

theorem pathToGo_length (cf : List (GridPosition × Option GridPosition))
    (csf : List (GridPosition × Nat)) (A : GridPosition)
    (hstep : ∀ q v, alistLookup cf q = some v → q ≠ A →
      ∃ p cq cp, v = some p ∧ p ∈ orthNeighbors q ∧
        alistLookup csf q = some cq ∧ alistLookup csf p = some cp ∧
        cp + 1000 ≤ cq ∧ (alistLookup cf p).isSome = true)
    (hlow : ∀ q c, alistLookup csf q = some c → 1000 * manhattanDist A q ≤ c) :
    ∀ (fuel : Nat) (current : GridPosition) (path : List GridPosition) (c : Nat),
      (alistLookup cf current).isSome = true →
      alistLookup csf current = some c →
      c ≤ 1000 * manhattanDist A current →
      manhattanDist A current ≤ fuel →
      (pathToGo cf A fuel current path).length =
        path.length + manhattanDist A current := by
  intro fuel
  induction fuel with
  | zero =>
    intro current path c hcf hcsf hub hfu
    have h0 : manhattanDist A current = 0 := Nat.le_zero.mp hfu
    have hAc : A = current := manhattanDist_zero h0
    unfold pathToGo
    rw [if_pos hAc.symm, List.length_reverse, h0]
    omega
  | succ n ih =>
    intro current path c hcf hcsf hub hfu
    by_cases hca : current = A
    · unfold pathToGo
      rw [if_pos hca, List.length_reverse, hca, manhattanDist_self]
      omega
    · rcases ho : alistLookup cf current with _ | v
      · rw [ho] at hcf
        cases hcf
      · obtain ⟨p, cq, cp, hv, hpq, hcq, hcp, hle, hcfp⟩ := hstep current v ho hca
        have hcqc : cq = c := by
          rw [hcsf] at hcq
          injection hcq with h
          exact h.symm
        have hlp := hlow p cp hcp
        have hadj := manhattan_adj_r hpq A
        have hdp : manhattanDist A p + 1 = manhattanDist A current := by omega
        have hcp_ub : cp ≤ 1000 * manhattanDist A p := by omega
        unfold pathToGo
        rw [if_neg hca]
        dsimp only
        rw [ho, hv]
        simp only [Option.getD_some]
        show (pathToGo cf A n p (path ++ [current])).length =
          path.length + manhattanDist A current
        rw [ih p (path ++ [current]) cp hcfp hcp hcp_ub (by omega),
          List.length_append]
        dsimp only [List.length]
        omega

theorem open_room_path_to_length (s : Station) (x0 x1 y0 y1 : Int)
    (A B : GridPosition)
    (hx0 : -2147483648 ≤ x0) (hx1 : x1 ≤ 2147483647)
    (hy0 : -2147483648 ≤ y0) (hy1 : y1 ≤ 2147483647)
    (hroom : ∀ p, inRoom x0 x1 y0 y1 p →
      ∃ t, s.get_tile p = some t ∧ t.kind = .Floor)
    (hA : inRoom x0 x1 y0 y1 A) (hB : inRoom x0 x1 y0 y1 B)
    (hcap : manhattanDist A B ≤ 10000) :
    (s.path_to A B).length = manhattanDist A B := by
  have hout := searchGo_optimal s A B x0 x1 y0 y1 hx0 hx1 hy0 hy1 hroom hA hB
    (searchInit A) (astar_init s A B x0 x1 y0 y1)
  unfold Station.path_to Station.search
  have hwalk := pathToGo_length (searchGo s B (searchInit A)).came_from
    (searchGo s B (searchInit A)).cost_so_far A hout.walkStep hout.lower
    10000 B [] (1000 * manhattanDist A B) hout.cameB hout.costB
    (Nat.le_refl _) hcap
  rw [hwalk]
  simp only [List.length_nil, Nat.zero_add]

/-- C1 (amended): for every pair of positions A, B of an all-Floor
rectangular room with no internal walls (bounds within the `i32` range of
`GridPosition` coordinates), with Manhattan distance at most the
10,000-iteration reconstruction cap, `path_to(A, B)` returns a sequence
whose length equals the Manhattan distance between A and B; in
particular, in the 4x4 fully-walled reference room, `path_to((1,1),(2,2))`
returns exactly the 2 waypoints (1,2),(2,2), and after adding a Wall tile
at (2,2) the same call returns an empty sequence. Beyond the cap the
length property fails: see the counterexample. -/
theorem pathfinding_length_amended (s : Station) (x0 x1 y0 y1 : Int)
    (A B : GridPosition)
    (hx0 : -2147483648 ≤ x0) (hx1 : x1 ≤ 2147483647)
    (hy0 : -2147483648 ≤ y0) (hy1 : y1 ≤ 2147483647)
    (hroom : ∀ p, inRoom x0 x1 y0 y1 p →
      ∃ t, s.get_tile p = some t ∧ t.kind = .Floor)
    (hA : inRoom x0 x1 y0 y1 A) (hB : inRoom x0 x1 y0 y1 B)
    (hcap : manhattanDist A B ≤ 10000) :
    test_station_full.path_to ⟨1, 1⟩ ⟨2, 2⟩ = [⟨1, 2⟩, ⟨2, 2⟩] ∧
    test_station_walled.path_to ⟨1, 1⟩ ⟨2, 2⟩ = [] ∧
    (s.path_to A B).length = manhattanDist A B :=
  ⟨path_to_full_eval, path_to_walled_eval,
    open_room_path_to_length s x0 x1 y0 y1 A B hx0 hx1 hy0 hy1 hroom hA hB hcap⟩

/-- Witness for the amended C1: the 2x2 Floor square of the reference
room is an open rectangular room, and the path from (1,1) to (2,2) has
length 2, the Manhattan distance; the walled variant yields the empty
path. -/
theorem pathfinding_length_amended_witness :
    (test_station_full.path_to ⟨1, 1⟩ ⟨2, 2⟩).length =
      manhattanDist ⟨1, 1⟩ ⟨2, 2⟩ ∧
    test_station_walled.path_to ⟨1, 1⟩ ⟨2, 2⟩ = [] := by
  have happ := pathfinding_length_amended test_station_full 1 2 1 2 ⟨1, 1⟩ ⟨2, 2⟩
    (by decide) (by decide) (by decide) (by decide)
    (by
      intro p hp
      obtain ⟨px, py⟩ := p
      obtain ⟨h1, h2, h3, h4⟩ := hp
      dsimp only at h1 h2 h3 h4
      have hx : px = 1 ∨ px = 2 := by omega
      have hy : py = 1 ∨ py = 2 := by omega
      rcases hx with rfl | rfl <;> rcases hy with rfl | rfl
      · exact ⟨Tile.new ⟨1, 1⟩ .Floor, rfl, rfl⟩
      · exact ⟨Tile.new ⟨1, 2⟩ .Floor, rfl, rfl⟩
      · exact ⟨Tile.new ⟨2, 1⟩ .Floor, rfl, rfl⟩
      · exact ⟨Tile.new ⟨2, 2⟩ .Floor, rfl, rfl⟩)
    ⟨by decide, by decide, by decide, by decide⟩
    ⟨by decide, by decide, by decide, by decide⟩
    (by decide)
  exact ⟨happ.2.2, happ.2.1⟩

end SpaceStation
